import Mathlib

/-
Verification of the GraphRAG retrieval engine.

This file gives a shallow embedding, in Lean 4, of the core of the GraphRAG
repository (graphrag/embedder.py, graphrag/entity_extraction.py,
graphrag/graph_builder.py, graphrag/retrieval.py) and settles the frozen
claims C1..C10 about it.

Modelling conventions:
* Python floats are idealised as real numbers `ℝ` where transcendental
  functions (`math.log`, `math.sqrt`) occur, and the purely structural
  retrieval pipeline is additionally parameterised over an arbitrary
  `LinearOrderedField` so that concrete runs can be evaluated over `ℚ`.
* Python dicts are modelled as association lists in insertion order, with
  assignment modelled as in-place replace-or-append (`upsertA`), matching
  dict semantics (updating a key keeps its position).
* Python regular expressions are modelled by direct executable scanners
  implementing the exact semantics of the two patterns used by the source
  (`[a-z0-9]+` after lowercasing, and the capitalized-phrase pattern
  `\b([A-Z][a-zA-Z]+(?:\s+[A-Z][a-zA-Z]+)*)\b`), over ASCII text.
* Raising an exception is modelled by `Option` (`none` = raise).
-/

namespace GraphRAG

/-! ## Tokenisation (embedder.py: TOKEN_PATTERN, tokenize) -/

/-- Token alphabet of `TOKEN_PATTERN = re.compile(r"[a-z0-9]+")`:
lowercase ASCII letters and digits. -/
def isTokChar (c : Char) : Bool :=
  ('a' ≤ c && c ≤ 'z') || ('0' ≤ c && c ≤ '9')

/-- Scanner for `findall` of `[a-z0-9]+`: emits maximal runs of token
characters. Fuel-indexed; `fuel = length of input` always suffices since every
step consumes at least one character. -/
def tokenizeAux : Nat → List Char → List String
  | 0, _ => []
  | _, [] => []
  | fuel + 1, c :: rest =>
    if isTokChar c then
      String.mk (c :: rest.takeWhile isTokChar) :: tokenizeAux fuel (rest.dropWhile isTokChar)
    else
      tokenizeAux fuel rest

/-- `tokenize(text)`: lowercases the text and extracts maximal alphanumeric
runs (source: `TOKEN_PATTERN.findall(text.lower())`). -/
def tokenize (text : String) : List String :=
  let cs := text.toList.map Char.toLower
  tokenizeAux cs.length cs

/-! ## Code-point order on strings

Python compares strings lexicographically by code point.  Lean's built-in
`String` order does not reduce in the kernel, so the model carries its own
executable lexicographic order, used everywhere the source calls `sorted`. -/

/-- Lexicographic comparison of char lists by code point. -/
def charsLe : List Char → List Char → Bool
  | [], _ => true
  | _ :: _, [] => false
  | a :: as, b :: bs => if a = b then charsLe as bs else decide (a < b)

/-- Python's `<=` on strings (lexicographic by code point). -/
def strLe (s t : String) : Bool := charsLe s.toList t.toList

/-- Python's `<` on strings. -/
def strLt (s t : String) : Bool := strLe s t && !(s == t)

/-! ## Association-list helpers (model of Python dicts) -/

/-- Dict assignment `m[k] = v`: replace in place if the key is present
(keeping its position, as Python dicts do), otherwise append. -/
def upsertA {κ β : Type} [DecidableEq κ] : List (κ × β) → κ → β → List (κ × β)
  | [], k, v => [(k, v)]
  | (k', v') :: rest, k, v =>
    if k' = k then (k, v) :: rest else (k', v') :: upsertA rest k v

/-- Dict lookup `m[k]` / `m.get(k)`. -/
def lookupA {κ β : Type} [DecidableEq κ] : List (κ × β) → κ → Option β
  | [], _ => none
  | (k', v) :: rest, k => if k' = k then some v else lookupA rest k

/-- First-occurrence deduplication: the iteration order of the keys of a
Python `Counter`/`dict` built by repeated insertion. -/
def dedupFirst (l : List String) : List String :=
  l.foldl (fun acc x => if x ∈ acc then acc else acc ++ [x]) []

/-! ## The bag-of-words embedder (embedder.py: BagOfWordsEmbedder) -/

/-- State of a `BagOfWordsEmbedder` after `fit`.  The Python vocabulary dict
`{token: idx}` produced by `fit` enumerates the sorted token list, so it is
represented by that list; a token's index is its position. -/
structure EmbedderState where
  vocabulary : List String
  idf : List ℝ

/-- Per-document token sets: `doc_tokens = [set(tokenize(doc)) for doc in documents]`. -/
def docTokenSets (documents : List String) : List (List String) :=
  documents.map (fun doc => (tokenize doc).dedup)

/-- Python's `sorted` on a list of strings (code-point lexicographic order). -/
def sortStrings (l : List String) : List String :=
  List.insertionSort (fun a b => strLe a b = true) l

/-- The fitted vocabulary: `sorted({token for tokens in doc_tokens for token in tokens})`. -/
def fitVocab (documents : List String) : List String :=
  sortStrings ((docTokenSets documents).flatten.dedup)

/-- Document frequency of a token:
`containing = sum(1 for tokens in doc_tokens if token in tokens)`. -/
def dfCount (documents : List String) (token : String) : Nat :=
  (docTokenSets documents).countP (fun tokens => token ∈ tokens)

/-- Smoothed idf: `math.log(1 + doc_count / (1 + containing))` with
`doc_count = len(doc_tokens)`. -/
noncomputable def idfScore (documents : List String) (token : String) : ℝ :=
  Real.log (1 + (documents.length : ℝ) / (1 + (dfCount documents token : ℝ)))

/-- The idf sequence produced by `fit`, one entry per vocabulary token. -/
noncomputable def fitIdf (documents : List String) : List ℝ :=
  (fitVocab documents).map (idfScore documents)

/-- `BagOfWordsEmbedder.fit(documents)`. -/
noncomputable def fit (documents : List String) : EmbedderState :=
  { vocabulary := fitVocab documents, idf := fitIdf documents }

/-- `max_count = max(token_counts.values()) if token_counts else 1`.
For a nonempty token list every count is at least 1, so folding `max` from 0
over the per-key counts gives exactly Python's `max`. -/
def maxCountVal (toks : List String) : Nat :=
  if toks = [] then 1
  else ((dedupFirst toks).map (fun t => toks.count t)).foldl max 0

/-- `BagOfWordsEmbedder.transform(text)`.  Returns `none` for the
`RuntimeError("Embedder must be fit before calling transform().")` raised when
the vocabulary is empty.  The loop over `token_counts.items()` is the fold over
the distinct tokens of the text (each with its count); `token not in
self.vocabulary → continue` and the index lookup are combined in `findIdx?`.
`self.idf[idx]` is modelled by `getD idx 0`; for every fitted embedder
`idx < idf.length` holds, so the default is never taken. -/
noncomputable def transformStep (V : List String) (idf : List ℝ) (w : String → ℝ)
    (vec : List ℝ) (token : String) : List ℝ :=
  match V.findIdx? (fun t => t == token) with
  | none => vec
  | some idx => vec.set idx (w token * idf.getD idx 0)

/-- The sublinear term-frequency weight `tf = 0.5 + 0.5 * (count / max_count)`
of one token of the text. -/
noncomputable def tfWeight (toks : List String) (token : String) : ℝ :=
  0.5 + 0.5 * ((toks.count token : ℝ) / (maxCountVal toks : ℝ))

noncomputable def transform (e : EmbedderState) (text : String) : Option (List ℝ) :=
  if e.vocabulary = [] then none
  else some ((dedupFirst (tokenize text)).foldl
    (transformStep e.vocabulary e.idf (tfWeight (tokenize text)))
    (List.replicate e.vocabulary.length 0))

/-- Modelled from the spec's words (claim C4), for comparison with
`transform`: the vector whose entry at each index `i` is
`(0.5 + 0.5*(count/max_count)) * idf[i]` if the `i`-th vocabulary token occurs
in the text, and `0` otherwise. -/
noncomputable def tfidfSpecVec (e : EmbedderState) (text : String) : List ℝ :=
  (List.range e.vocabulary.length).map (fun i =>
    if e.vocabulary.getD i "" ∈ tokenize text then
      tfWeight (tokenize text) (e.vocabulary.getD i "") * e.idf.getD i 0
    else 0)

/-! ## Cosine similarity (embedder.py: cosine_similarity) -/

/-- `sum(a * a for a in vec)`. -/
noncomputable def sumSq (v : List ℝ) : ℝ := (v.map (fun a => a * a)).sum

/-- `sum(a * b for a, b in zip(vec_a, vec_b))`. -/
noncomputable def dotProd (a b : List ℝ) : ℝ := ((a.zip b).map (fun p => p.1 * p.2)).sum

/-- `cosine_similarity(vec_a, vec_b)`: returns 0 when either norm is 0,
otherwise `dot / (norm_a * norm_b)`. -/
noncomputable def cosine_similarity (a b : List ℝ) : ℝ :=
  if Real.sqrt (sumSq a) = 0 ∨ Real.sqrt (sumSq b) = 0 then 0
  else dotProd a b / (Real.sqrt (sumSq a) * Real.sqrt (sumSq b))

/-! ## Chunks, entities, relations (chunker.py / entity_extraction.py) -/

structure Chunk where
  chunk_id : String
  doc_id : String
  text : String
deriving DecidableEq

structure Entity where
  entity_id : String
  label : String
  frequency : Nat
deriving DecidableEq

structure Relation where
  head_id : String
  tail_id : String
  weight : ℚ
  description : String
deriving DecidableEq

/-! ### The entity pattern

`ENTITY_PATTERN = re.compile(r"\b([A-Z][a-zA-Z]+(?:\s+[A-Z][a-zA-Z]+)*)\b")`,
scanned with `findall` (left-to-right, non-overlapping).  The scanner below
implements exactly the behaviour of Python's engine on this pattern for ASCII
text: greedy matching, with the one backtracking step that can occur — when
the trailing `\b` fails (the next character is a digit or an underscore,
letters being impossible after a maximal letter run), shrinking the last
letter run cannot help (the following character would be a letter, still a
word character), so the engine drops the final `\s+[A-Z][a-zA-Z]+` group,
after which the boundary holds because the next character is whitespace; a
single-word match fails outright at that position. -/

/-- ASCII uppercase letter, the class `[A-Z]`. -/
def isUpperAZ (c : Char) : Bool := 'A' ≤ c && c ≤ 'Z'

/-- ASCII letter, the class `[a-zA-Z]`. -/
def isAlphaAZ (c : Char) : Bool := isUpperAZ c || ('a' ≤ c && c ≤ 'z')

/-- Python's `\w` (ASCII): letters, digits, underscore. -/
def isWordChar (c : Char) : Bool := isAlphaAZ c || c.isDigit || c = '_'

/-- Python's `\s` (ASCII). -/
def isSpaceChar (c : Char) : Bool :=
  c = ' ' || c = '\t' || c = '\n' || c = '\r' || c = '\x0b' || c = '\x0c'

/-- The trailing `\b` after a letter: the next character must not be a word
character (or the input must end). -/
def boundaryAfter : List Char → Bool
  | [] => true
  | c :: _ => !isWordChar c

/-- Greedy match of `[A-Z][a-zA-Z]+` at the head: an uppercase letter followed
by a maximal, nonempty letter run.  Returns the match and the rest. -/
def matchCapWord : List Char → Option (List Char × List Char)
  | [] => none
  | c :: rest =>
    if isUpperAZ c then
      match rest.takeWhile isAlphaAZ with
      | [] => none
      | run => some (c :: run, rest.dropWhile isAlphaAZ)
    else none

/-- Greedy match of the starred group `(?:\s+[A-Z][a-zA-Z]+)*`: returns the
matched `spaces ++ word` segments and the rest.  Fuel-indexed; each iteration
consumes at least two characters, so `fuel = input length` suffices. -/
def capGroups : Nat → List Char → (List (List Char) × List Char)
  | 0, l => ([], l)
  | fuel + 1, l =>
    match l.takeWhile isSpaceChar with
    | [] => ([], l)
    | sp =>
      match matchCapWord (l.dropWhile isSpaceChar) with
      | none => ([], l)
      | some (w, rest) =>
        let p := capGroups fuel rest
        ((sp ++ w) :: p.1, p.2)

/-- Match the pattern (minus the leading `\b`, which the caller checks) at the
head of the input, including the single backtracking step described above.
Returns the matched text and the rest of the input (the dropped group is
rescanned, as Python resumes at the end of the shortened match). -/
def matchPhraseAt (l : List Char) : Option (List Char × List Char) :=
  match matchCapWord l with
  | none => none
  | some (w, r1) =>
    let p := capGroups r1.length r1
    if boundaryAfter p.2 then some (w ++ p.1.flatten, p.2)
    else
      match p.1.getLast? with
      | none => none
      | some lastSeg => some (w ++ p.1.dropLast.flatten, lastSeg ++ p.2)

/-- `ENTITY_PATTERN.findall`: scan left to right; `prev` is the character
before the current position (`none` at the start), used for the leading
`\b` (which, the first matched character being a letter, holds exactly when
`prev` is not a word character). -/
def entityScan : Nat → Option Char → List Char → List String
  | 0, _, _ => []
  | _, _, [] => []
  | fuel + 1, prev, c :: rest =>
    let boundary := match prev with
      | none => true
      | some p => !isWordChar p
    if boundary then
      match matchPhraseAt (c :: rest) with
      | some (m, r) => String.mk m :: entityScan fuel m.getLast? r
      | none => entityScan fuel (some c) rest
    else entityScan fuel (some c) rest

/-- All matches of `ENTITY_PATTERN` in a text, in scan order
(`ENTITY_PATTERN.findall(chunk.text)`). -/
def entityMatches (text : String) : List String :=
  entityScan text.toList.length none text.toList

/-! ### extract_entities / extract_relations -/

/-- `entity_id = label.lower().replace(" ", "_")`. -/
def deriveEntityId (label : String) : String :=
  String.mk (label.toList.map (fun c => if Char.toLower c = ' ' then '_' else Char.toLower c))

/-- The stream of all pattern matches over the chunks, in scan order: the
update stream of the `Counter` in `extract_entities`. -/
def corpusLabels (chunks : List Chunk) : List String :=
  chunks.flatMap (fun c => entityMatches c.text)

/-- The `Counter` of `extract_entities`, as an association list in key
insertion order (= first occurrence order). -/
def labelCounter (chunks : List Chunk) : List (String × Nat) :=
  (dedupFirst (corpusLabels chunks)).map (fun l => (l, (corpusLabels chunks).count l))

/-- `extract_entities(chunks, min_freq)`: keep the labels whose corpus-wide
frequency is at least `min_freq`, keyed by the derived entity id.  Keying is a
Python dict assignment, so a later label whose derived id collides with an
earlier one overwrites it. -/
def extract_entities (chunks : List Chunk) (min_freq : Int) : List (String × Entity) :=
  (labelCounter chunks).foldl
    (fun m p =>
      if (p.2 : Int) < min_freq then m
      else upsertA m (deriveEntityId p.1) ⟨deriveEntityId p.1, p.1, p.2⟩)
    []

/-- `entity_labels = {entity.label: entity_id for entity_id, entity in entities.items()}`. -/
def entityLabels (entities : List (String × Entity)) : List (String × String) :=
  entities.foldl (fun m p => upsertA m p.2.label p.1) []

/-- The distinct, sorted entity ids mentioned in one chunk:
`sorted(set(entity_labels[m] for m in findall(text) if m in entity_labels))`. -/
def chunkEntityIds (entities : List (String × Entity)) (c : Chunk) : List String :=
  sortStrings (dedupFirst ((entityMatches c.text).filterMap
    (fun m => lookupA (entityLabels entities) m)))

/-- `itertools.combinations(l, 2)`: all pairs in list order. -/
def listPairs : List String → List (String × String)
  | [] => []
  | x :: xs => xs.map (fun y => (x, y)) ++ listPairs xs

/-- One `relations[(head, tail)] += 1` on the `defaultdict(int)`. -/
def bumpPair : List ((String × String) × Nat) → (String × String) → List ((String × String) × Nat)
  | [], k => [(k, 1)]
  | (k', v) :: rest, k => if k' = k then (k', v + 1) :: rest else (k', v) :: bumpPair rest k

/-- The co-occurrence counter of `extract_relations` after all chunks are
processed, in key insertion order. -/
def relationCounter (chunks : List Chunk) (entities : List (String × Entity)) :
    List ((String × String) × Nat) :=
  chunks.foldl (fun m c => (listPairs (chunkEntityIds entities c)).foldl bumpPair m) []

/-- `extract_relations(chunks, entities)`.  The description looks up
`entities[tail].label`; the tail id is always a key of `entities` (it came
from a value of `entity_labels`), so the `getD ""` default is never taken. -/
def extract_relations (chunks : List Chunk) (entities : List (String × Entity)) :
    List Relation :=
  (relationCounter chunks entities).map (fun p =>
    { head_id := p.1.1
      tail_id := p.1.2
      weight := (p.2 : ℚ)
      description := "Co-occurs with " ++ (((lookupA entities p.1.2).map Entity.label).getD "") })

/-! ## Substring containment (graph_builder.py uses `entity.label in chunk.text`) -/

/-- Is the first list an initial segment of the second? -/
def charsStartWith : List Char → List Char → Bool
  | [], _ => true
  | _ :: _, [] => false
  | a :: as, b :: bs => a = b && charsStartWith as bs

/-- Does the second list contain the first as a contiguous segment? -/
def charsContains (n : List Char) : List Char → Bool
  | [] => n.isEmpty
  | c :: t => charsStartWith n (c :: t) || charsContains n t

/-- Python's `needle in haystack` on strings (substring containment). -/
def substrB (needle hay : String) : Bool := charsContains needle.toList hay.toList

/-! ## The graph (graph_builder.py) -/

/-- Node attributes: chunk nodes carry `doc_id` and `text`, entity nodes carry
`label` and `frequency`; `bare` is a node created implicitly by `add_edge`
with no attributes, whose `get("type")` is `None`.  (networkx `add_node` on an
existing node merges attribute dicts; in `build_graph` the only possible
overwrite — an entity id colliding with a chunk id — replaces every
claim-relevant attribute including `type`, so replace semantics is used.) -/
inductive NodeData where
  | chunkD (doc_id text : String)
  | entityD (label : String) (frequency : Nat)
  | bare
deriving DecidableEq

structure EdgeData where
  etype : String
  weight : ℚ
  description : Option String
deriving DecidableEq

/-- An undirected networkx graph: nodes with attributes, in insertion order,
and edges keyed by unordered pairs (stored in first-insertion orientation)
with attributes. -/
structure Graph where
  nodes : List (String × NodeData)
  edges : List ((String × String) × EdgeData)
deriving DecidableEq

/-- `graph.add_node(u, **attrs)` (replace semantics, see `NodeData`). -/
def Graph.addNode (g : Graph) (u : String) (d : NodeData) : Graph :=
  { g with nodes := upsertA g.nodes u d }

/-- Replace the data of the edge between `u` and `v` if present (in either
stored orientation, keeping position and orientation), else append keyed
`(u, v)` — the semantics of setting edge data in an undirected graph. -/
def upsertEdge : List ((String × String) × EdgeData) → String → String → EdgeData →
    List ((String × String) × EdgeData)
  | [], u, v, d => [((u, v), d)]
  | (key, d') :: rest, u, v, d =>
    if key = (u, v) ∨ key = (v, u) then (key, d) :: rest
    else (key, d') :: upsertEdge rest u v d

/-- `graph.add_edge(u, v, **attrs)`: missing endpoints are created as bare
nodes, then the edge data is set (overwriting any previous edge between the
same pair). -/
def Graph.addEdge (g : Graph) (u v : String) (d : EdgeData) : Graph :=
  { nodes :=
      (fun ns => if v ∈ ns.map Prod.fst then ns else ns ++ [(v, NodeData.bare)])
        (if u ∈ g.nodes.map Prod.fst then g.nodes else g.nodes ++ [(u, NodeData.bare)])
    edges := upsertEdge g.edges u v d }

/-- `graph.neighbors(n)`: the adjacency of `n`, in edge insertion order. -/
def Graph.neighbors (g : Graph) (n : String) : List String :=
  g.edges.filterMap (fun e =>
    if e.1.1 = n then some e.1.2 else if e.1.2 = n then some e.1.1 else none)

/-- `graph.nodes[n].get("type")`. -/
def Graph.nodeType (g : Graph) (n : String) : Option String :=
  (lookupA g.nodes n).bind (fun d =>
    match d with
    | NodeData.chunkD _ _ => some "chunk"
    | NodeData.entityD _ _ => some "entity"
    | NodeData.bare => none)

/-- `graph[u][v].get("type")` (either orientation; `none` when the edge is
absent — in the retriever the edge always exists, `v` being a neighbor). -/
def Graph.edgeType (g : Graph) (u v : String) : Option String :=
  ((g.edges.find? (fun e => decide (e.1 = (u, v)) || decide (e.1 = (v, u)))).map
    (fun e => e.2.etype))

/-- The entity keys whose label occurs as a literal substring of the chunk's
text: `[entity_id for entity_id, entity in entities.items() if entity.label in
chunk.text]`. -/
def mentionTargets (entities : List (String × Entity)) (c : Chunk) : List String :=
  entities.filterMap (fun p => if substrB p.2.label c.text then some p.1 else none)

/-- `build_graph(chunks, entities, relations)`: reading inside out — one node
per chunk, then one node per entity (keyed by the `entity_id` field), then a
`mentions` edge (weight 1.0) from each chunk to each entity whose label is a
substring of its text (keyed by the dict key), and finally a `co_occurs` edge
per relation whose two endpoints both exist. -/
def build_graph (chunks : List Chunk) (entities : List (String × Entity))
    (relations : List Relation) : Graph :=
  relations.foldl
    (fun g r =>
      if r.head_id ∈ g.nodes.map Prod.fst ∧ r.tail_id ∈ g.nodes.map Prod.fst then
        g.addEdge r.head_id r.tail_id ⟨"co_occurs", r.weight, some r.description⟩
      else g)
    (chunks.foldl
      (fun g c => (mentionTargets entities c).foldl
        (fun g eid => g.addEdge c.chunk_id eid ⟨"mentions", 1, none⟩) g)
      (entities.foldl
        (fun g p => g.addNode p.2.entity_id (NodeData.entityD p.2.label p.2.frequency))
        (chunks.foldl
          (fun g c => g.addNode c.chunk_id (NodeData.chunkD c.doc_id c.text))
          { nodes := [], edges := [] })))

/-! ## Retrieval (retrieval.py)

The pipeline after embedding is purely structural in the score values, so it
is parameterised over an arbitrary linear ordered field; `query` instantiates
it at `ℝ`, and concrete runs can be evaluated over `ℚ`. -/

structure RetrievalResult (α : Type) where
  chunk_id : String
  score : α
  text : String
  trail : List String
deriving DecidableEq

/-- `self.chunk_index[expansion].text`; on a built retriever every id is
present (the index covers all chunks), so the `""` default is never taken
(the source would raise `KeyError`). -/
def chunkTextOf (idx : List (String × Chunk)) (cid : String) : String :=
  ((lookupA idx cid).map Chunk.text).getD ""

/-- The inner loop of `_expand_via_graph` over `self.graph.neighbors(neighbor)`:
emit one RetrievalResult (score `base * 0.8`, trail `[seed, entity, expansion]`)
per not-yet-visited chunk-kind expansion distinct from the seed, threading the
shared visited set.  Returns the emissions and the updated visited set. -/
def expandInner {α : Type} [LinearOrderedField α] (g : Graph) (idx : List (String × Chunk))
    (cid : String) (base : α) (nb : String) :
    List String → List String → List (RetrievalResult α) × List String
  | [], vis => ([], vis)
  | e :: rest, vis =>
    if e = cid then expandInner g idx cid base nb rest vis
    else if e ∈ vis then expandInner g idx cid base nb rest vis
    else if g.nodeType e ≠ some "chunk" then expandInner g idx cid base nb rest vis
    else
      let p := expandInner g idx cid base nb rest (vis ++ [e])
      (⟨e, base * 0.8, chunkTextOf idx e, [cid, nb, e]⟩ :: p.1, p.2)

/-- The middle loop of `_expand_via_graph` over `self.graph.neighbors(chunk_id)`,
keeping only `mentions`-typed edges. -/
def expandMentions {α : Type} [LinearOrderedField α] (g : Graph) (idx : List (String × Chunk))
    (cid : String) (base : α) :
    List String → List String → List (RetrievalResult α) × List String
  | [], vis => ([], vis)
  | nb :: rest, vis =>
    if g.edgeType cid nb ≠ some "mentions" then expandMentions g idx cid base rest vis
    else
      let p1 := expandInner g idx cid base nb (g.neighbors nb) vis
      let p2 := expandMentions g idx cid base rest p1.2
      (p1.1 ++ p2.1, p2.2)

/-- The outer loop of `_expand_via_graph`, seed by seed in ranked order: a
seed absent from the graph is skipped; otherwise its expansions are emitted,
then the seed itself with `trail = [seed]` and its original score, and the
seed id is added to the visited set. -/
def expandSeeds {α : Type} [LinearOrderedField α] (g : Graph) (idx : List (String × Chunk)) :
    List (String × α) → List String → List (RetrievalResult α)
  | [], _ => []
  | (cid, sc) :: rest, vis =>
    if cid ∉ g.nodes.map Prod.fst then expandSeeds g idx rest vis
    else
      let p := expandMentions g idx cid sc (g.neighbors cid) vis
      p.1 ++ (⟨cid, sc, chunkTextOf idx cid, [cid]⟩ :: expandSeeds g idx rest (p.2 ++ [cid]))

/-- Stable insertion into a descending-sorted list: the new element goes
after every element whose key is ≥ its own — Python's stable
`sort(key=..., reverse=True)` places later-arriving equals last. -/
def insertDescBy {α β : Type} [LinearOrder α] (score : β → α) (r : β) :
    List β → List β
  | [] => [r]
  | x :: xs => if score r ≤ score x then x :: insertDescBy score r xs else r :: x :: xs

/-- Python's stable `sort(key=score, reverse=True)`. -/
def sortDescBy {α β : Type} [LinearOrder α] (score : β → α) (l : List β) : List β :=
  l.foldl (fun acc r => insertDescBy score r acc) []

/-- `GraphRetriever._expand_via_graph(top_chunks)`: the seed-by-seed
expansion followed by the final stable descending re-sort by score. -/
def expand_via_graph {α : Type} [LinearOrderedField α] (g : Graph)
    (idx : List (String × Chunk)) (top_chunks : List (String × α)) :
    List (RetrievalResult α) :=
  sortDescBy RetrievalResult.score (expandSeeds g idx top_chunks [])

/-- Python's `l[:k]` for an arbitrary `int` k: nonnegative k takes the first
k elements, negative k drops the last `|k|`. -/
def pyTake {α : Type} (k : Int) (l : List α) : List α :=
  if k < 0 then l.take ((l.length : Int) + k).toNat else l.take k.toNat

/-- The state of a `GraphRetriever`. -/
structure GraphRetriever where
  graph : Graph
  chunk_index : List (String × Chunk)
  embedder : EmbedderState
  chunk_embeddings : List (String × List ℝ)

/-- `GraphRetriever._score_chunks(query_vec)`: cosine similarity against every
per-chunk embedding (in dict order), then stable sort descending by score. -/
noncomputable def score_chunks (st : GraphRetriever) (query_vec : List ℝ) :
    List (String × ℝ) :=
  sortDescBy Prod.snd
    (st.chunk_embeddings.map (fun p => (p.1, cosine_similarity query_vec p.2)))

/-- `GraphRetriever.query(text, k)`: embed the question (raising — `none` — if
the embedder is unfitted), rank all chunks, slice the top `k`, expand via the
graph. -/
noncomputable def GraphRetriever.query (st : GraphRetriever) (text : String) (k : Int) :
    Option (List (RetrievalResult ℝ)) :=
  (transform st.embedder text).map (fun qv =>
    expand_via_graph st.graph st.chunk_index (pyTake k (score_chunks st qv)))

/-- A concretely built retriever over two one-token chunks, used as the test
fixture for the retrieval claims: the embedder is fitted on the chunk texts
and the embeddings are its own `transform` outputs, exactly as
`GraphRAGPipeline.from_path` builds them. -/
noncomputable def demoRetriever : GraphRetriever :=
  { graph := build_graph [⟨"c1", "d", "a"⟩, ⟨"c2", "d", "a"⟩] [] []
    chunk_index := [("c1", ⟨"c1", "d", "a"⟩), ("c2", ⟨"c2", "d", "a"⟩)]
    embedder := fit ["a", "a"]
    chunk_embeddings :=
      [("c1", (transform (fit ["a", "a"]) "a").getD []),
        ("c2", (transform (fit ["a", "a"]) "a").getD [])] }

/-- A retrieval fixture over ℚ: two chunks whose texts both contain the label
of the single entity `paris`, so the second seed chunk is reachable as a graph
expansion of the first. -/
def parisGraph : Graph :=
  build_graph [⟨"c1", "d", "Paris one"⟩, ⟨"c2", "d", "Paris two"⟩]
    [("paris", ⟨"paris", "Paris", 2⟩)] []

/-- The chunk index matching `parisGraph`, as `pipeline.py` builds it. -/
def parisIndex : List (String × Chunk) :=
  [("c1", ⟨"c1", "d", "Paris one"⟩), ("c2", ⟨"c2", "d", "Paris two"⟩)]

/-- Ranked seeds for the fixture: both chunks, `c1` ranked first. -/
def parisTops : List (String × ℚ) := [("c1", 1), ("c2", 0)]

/-! ## Theorems -/

/-- C9: for equal-length vectors, `cosine_similarity` returns exactly 0
whenever either vector has zero norm (equivalently, zero sum of squares), and
in the remaining case the divisor `norm_a * norm_b` is nonzero, so the
division is never a division by zero.  The function is total, so it never
raises. -/
theorem claim_C9 (a b : List ℝ) (h : a.length = b.length) :
    (sumSq a = 0 ∨ sumSq b = 0 → cosine_similarity a b = 0)
    ∧ (Real.sqrt (sumSq a) ≠ 0 → Real.sqrt (sumSq b) ≠ 0 →
        Real.sqrt (sumSq a) * Real.sqrt (sumSq b) ≠ 0) := by
  constructor
  · intro hz
    have : Real.sqrt (sumSq a) = 0 ∨ Real.sqrt (sumSq b) = 0 := by
      rcases hz with hz | hz
      · exact Or.inl (by rw [hz, Real.sqrt_zero])
      · exact Or.inr (by rw [hz, Real.sqrt_zero])
    rw [cosine_similarity, if_pos this]
  · intro ha hb
    exact mul_ne_zero ha hb

/-- Witness for C9 at a concrete input: the zero vector against `[5]`. -/
theorem claim_C9_witness : cosine_similarity [0] [5] = 0 := by
  have h := claim_C9 [0] [5] (by decide)
  exact h.1 (Or.inl (by simp [sumSq]))

lemma dedupFirst_go_mem (l : List String) (acc : List String) (x : String) :
    x ∈ l.foldl (fun acc x => if x ∈ acc then acc else acc ++ [x]) acc ↔ x ∈ acc ∨ x ∈ l := by
  induction l generalizing acc with
  | nil => simp
  | cons a t ih =>
    simp only [List.foldl_cons, ih, List.mem_cons]
    by_cases ha : a ∈ acc
    · simp only [if_pos ha]
      constructor
      · rintro (h | h)
        · exact Or.inl h
        · exact Or.inr (Or.inr h)
      · rintro (h | h | h)
        · exact Or.inl h
        · exact Or.inl (h ▸ ha)
        · exact Or.inr h
    · simp only [if_neg ha, List.mem_append, List.mem_singleton]
      tauto

lemma mem_dedupFirst (l : List String) (x : String) : x ∈ dedupFirst l ↔ x ∈ l := by
  simp [dedupFirst, dedupFirst_go_mem]

lemma dedupFirst_go_nodup (l : List String) (acc : List String) (h : acc.Nodup) :
    (l.foldl (fun acc x => if x ∈ acc then acc else acc ++ [x]) acc).Nodup := by
  induction l generalizing acc with
  | nil => simpa
  | cons a t ih =>
    simp only [List.foldl_cons]
    by_cases ha : a ∈ acc
    · simpa [if_pos ha] using ih acc h
    · refine ih _ ?_
      simp [List.nodup_append, h, ha]

lemma nodup_dedupFirst (l : List String) : (dedupFirst l).Nodup :=
  dedupFirst_go_nodup l [] List.nodup_nil

lemma nodup_fitVocab (documents : List String) : (fitVocab documents).Nodup :=
  ((List.perm_insertionSort _ _).nodup_iff).mpr (List.nodup_dedup _)

lemma transformStep_none {V : List String} {idf : List ℝ} {w : String → ℝ}
    {vec : List ℝ} {token : String} (h : V.findIdx? (fun t => t == token) = none) :
    transformStep V idf w vec token = vec := by
  simp [transformStep, h]

lemma transformStep_some {V : List String} {idf : List ℝ} {w : String → ℝ}
    {vec : List ℝ} {token : String} {j : Nat}
    (h : V.findIdx? (fun t => t == token) = some j) :
    transformStep V idf w vec token = vec.set j (w token * idf.getD j 0) := by
  simp [transformStep, h]

lemma transform_foldl_length (V : List String) (idf : List ℝ) (w : String → ℝ)
    (ts : List String) (acc : List ℝ) :
    (ts.foldl (transformStep V idf w) acc).length = acc.length := by
  induction ts generalizing acc with
  | nil => rfl
  | cons t ts ih =>
    rw [List.foldl_cons, ih]
    cases hfind : V.findIdx? (fun t' => t' == t) with
    | none => rw [transformStep_none hfind]
    | some j => rw [transformStep_some hfind, List.length_set]

lemma transform_foldl_getElem? (V : List String) (idf : List ℝ) (w : String → ℝ)
    (hV : V.Nodup) (ts : List String) (acc : List ℝ) (hlen : acc.length = V.length)
    (i : Nat) (hi : i < V.length) :
    (ts.foldl (transformStep V idf w) acc)[i]?
    = if V[i] ∈ ts then some (w V[i] * idf.getD i 0) else acc[i]? := by
  induction ts generalizing acc with
  | nil => simp
  | cons t ts ih =>
    rw [List.foldl_cons]
    cases hfind : V.findIdx? (fun t' => t' == t) with
    | none =>
      have hne : V[i] ≠ t := by
        intro hEq
        have := (List.findIdx?_eq_none_iff.mp hfind) V[i] (List.getElem_mem hi)
        simp [hEq] at this
      rw [transformStep_none hfind, ih acc hlen]
      by_cases hm : V[i] ∈ ts <;> simp [hm, hne, List.mem_cons]
    | some j =>
      obtain ⟨hj, hjt, -⟩ := List.findIdx?_eq_some_iff_getElem.mp hfind
      have hVj : V[j] = t := by simpa using hjt
      rw [transformStep_some hfind]
      have hlen' : (acc.set j (w t * idf.getD j 0)).length = V.length := by
        rw [List.length_set]; exact hlen
      rw [ih _ hlen']
      by_cases hm : V[i] ∈ ts
      · simp [hm, List.mem_cons]
      · by_cases heq : V[i] = t
        · have hij : i = j := hV.getElem_inj_iff.mp (by rw [hVj, heq])
          have hjlen : j < acc.length := by rw [hlen]; exact hj
          subst hij
          simp [hm, heq, List.getElem?_set_self hjlen, hVj, List.mem_cons]
        · have hij : i ≠ j := fun hEq => heq (by subst hEq; exact hVj)
          simp [hm, heq, List.getElem?_set_ne (Ne.symm hij), List.mem_cons]

/-- C4 (amended): for every embedder fitted on a corpus whose vocabulary is
nonempty, and every text, `transform` succeeds and returns exactly the vector
described by the spec formula (`tfidfSpecVec`): entry `i` is
`(0.5 + 0.5*(count/max_count)) * idf[i]` when vocabulary token `i` occurs in
the text and `0` otherwise; out-of-vocabulary tokens are silently ignored; the
vector length equals the vocabulary size, which equals the idf length. -/
theorem claim_C4_amended (documents : List String) (text : String)
    (h : fitVocab documents ≠ []) :
    transform (fit documents) text = some (tfidfSpecVec (fit documents) text)
    ∧ (tfidfSpecVec (fit documents) text).length = (fit documents).vocabulary.length
    ∧ (fit documents).vocabulary.length = (fit documents).idf.length := by
  refine ⟨?_, by simp [tfidfSpecVec], by simp [fit, fitIdf]⟩
  have hV : (fit documents).vocabulary.Nodup := nodup_fitVocab documents
  have h' : (fit documents).vocabulary ≠ [] := h
  rw [transform, if_neg h']
  congr 1
  apply List.ext_getElem?
  intro n
  by_cases hn : n < (fit documents).vocabulary.length
  · rw [transform_foldl_getElem? (fit documents).vocabulary (fit documents).idf
      (tfWeight (tokenize text)) hV (dedupFirst (tokenize text)) _ (by simp) n hn]
    have hrange : (List.range (fit documents).vocabulary.length)[n]? = some n :=
      List.getElem?_range hn
    have hsome : (fit documents).vocabulary[n]? = some ((fit documents).vocabulary[n]) :=
      List.getElem?_eq_getElem hn
    by_cases hm : (fit documents).vocabulary[n] ∈ tokenize text
    · simp [tfidfSpecVec, List.getElem?_map, hrange, hsome, hm, mem_dedupFirst]
    · simp [tfidfSpecVec, List.getElem?_map, hrange, hsome, hm, mem_dedupFirst,
        List.getElem?_replicate, hn]
  · have h1 : ((dedupFirst (tokenize text)).foldl
        (transformStep (fit documents).vocabulary (fit documents).idf
          (tfWeight (tokenize text)))
        (List.replicate (fit documents).vocabulary.length 0))[n]? = none := by
      apply List.getElem?_eq_none
      rw [transform_foldl_length]
      simpa using Nat.le_of_not_lt hn
    rw [h1]
    symm
    apply List.getElem?_eq_none
    simpa [tfidfSpecVec] using Nat.le_of_not_lt hn

/-- Witness for C4 (amended) at a concrete corpus and text. -/
theorem claim_C4_amended_witness :
    transform (fit ["b a"]) "a b b" = some (tfidfSpecVec (fit ["b a"]) "a b b")
    ∧ (tfidfSpecVec (fit ["b a"]) "a b b").length = (fit ["b a"]).vocabulary.length
    ∧ (fit ["b a"]).vocabulary.length = (fit ["b a"]).idf.length :=
  claim_C4_amended ["b a"] "a b b" (by decide)

/-- Counterexample to C4 as stated: the embedder fitted on the corpus `[""]`
(one token-free document) is a fitted embedder, yet `transform` does not
return a vector — it raises the "not fitted" RuntimeError (modelled as
`none`). -/
theorem claim_C4_counterexample : transform (fit [""]) "x" = none := by
  rw [transform, if_pos (by decide)]

/-- C10: `transform` raises the "not fitted" RuntimeError exactly when the
vocabulary is empty, and the vocabulary produced by `fit` is empty exactly
when every fitted document is token-free (in particular when the corpus is
empty); so an unfitted embedder is indistinguishable, through `transform`,
from one fitted on a token-free corpus. -/
theorem claim_C10 :
    (∀ (e : EmbedderState) (text : String), transform e text = none ↔ e.vocabulary = [])
    ∧ (∀ documents : List String,
        (fit documents).vocabulary = [] ↔ ∀ d ∈ documents, tokenize d = []) := by
  constructor
  · intro e text
    by_cases h : e.vocabulary = [] <;> simp [transform, h]
  · intro documents
    show fitVocab documents = [] ↔ _
    have hlen : (fitVocab documents).length = ((docTokenSets documents).flatten.dedup).length :=
      (List.perm_insertionSort _ _).length_eq
    have h1 : fitVocab documents = [] ↔ (docTokenSets documents).flatten.dedup = [] := by
      rw [← List.length_eq_zero, ← List.length_eq_zero, hlen]
    rw [h1, List.dedup_eq_nil, List.flatten_eq_nil_iff]
    constructor
    · intro h d hd
      have := h ((tokenize d).dedup) (by simp [docTokenSets]; exact ⟨d, hd, rfl⟩)
      rwa [List.dedup_eq_nil] at this
    · intro h l hl
      simp only [docTokenSets, List.mem_map] at hl
      obtain ⟨d, hd, rfl⟩ := hl
      rw [List.dedup_eq_nil]
      exact h d hd

/-- Witness for C10-style behaviour at a concrete input: fitting on a
token-free corpus yields an embedder on which `transform` raises. -/
theorem claim_C10_witness : transform (fit [""]) "abc" = none :=
  (claim_C10.1 (fit [""]) "abc").mpr ((claim_C10.2 [""]).mpr (by decide))

lemma charsLe_total : ∀ a b : List Char, charsLe a b = true ∨ charsLe b a = true
  | [], _ => Or.inl rfl
  | _ :: _, [] => Or.inr rfl
  | x :: xs, y :: ys => by
    by_cases hxy : x = y
    · subst hxy
      rcases charsLe_total xs ys with h | h
      · exact Or.inl (by simpa [charsLe] using h)
      · exact Or.inr (by simpa [charsLe] using h)
    · rcases lt_or_gt_of_ne hxy with h | h
      · exact Or.inl (by simp [charsLe, hxy, h])
      · exact Or.inr (by simp [charsLe, Ne.symm hxy, h])

lemma charsLe_trans : ∀ a b c : List Char,
    charsLe a b = true → charsLe b c = true → charsLe a c = true
  | [], _, _, _, _ => rfl
  | _ :: _, [], _, hab, _ => by simp [charsLe] at hab
  | _ :: _, _ :: _, [], _, hbc => by simp [charsLe] at hbc
  | x :: xs, y :: ys, z :: zs, hab, hbc => by
    by_cases hxy : x = y <;> by_cases hyz : y = z
    · subst hxy; subst hyz
      simp only [charsLe, if_pos rfl] at hab hbc ⊢
      exact charsLe_trans xs ys zs hab hbc
    · subst hxy
      have hlt : x < z := by simpa [charsLe, hyz] using hbc
      simp [charsLe, hyz, hlt]
    · subst hyz
      have hlt : x < y := by simpa [charsLe, hxy] using hab
      simp [charsLe, hxy, hlt]
    · have h1 : x < y := by simpa [charsLe, hxy] using hab
      have h2 : y < z := by simpa [charsLe, hyz] using hbc
      simp [charsLe, ne_of_lt (lt_trans h1 h2), lt_trans h1 h2]

lemma charsLe_antisymm : ∀ a b : List Char,
    charsLe a b = true → charsLe b a = true → a = b
  | [], [], _, _ => rfl
  | [], _ :: _, _, hba => by simp [charsLe] at hba
  | _ :: _, [], hab, _ => by simp [charsLe] at hab
  | x :: xs, y :: ys, hab, hba => by
    by_cases hxy : x = y
    · subst hxy
      simp only [charsLe, if_pos rfl] at hab hba
      rw [charsLe_antisymm xs ys hab hba]
    · have h1 : x < y := by simpa [charsLe, hxy] using hab
      have h2 : y < x := by simpa [charsLe, Ne.symm hxy] using hba
      exact absurd h2 (asymm h1)

lemma sortStrings_eq_of_perm {l₁ l₂ : List String} (h : l₁.Perm l₂) :
    sortStrings l₁ = sortStrings l₂ := by
  haveI : IsTotal String (fun a b => strLe a b = true) :=
    ⟨fun a b => charsLe_total a.toList b.toList⟩
  haveI : IsTrans String (fun a b => strLe a b = true) :=
    ⟨fun a b c => charsLe_trans a.toList b.toList c.toList⟩
  haveI : IsAntisymm String (fun a b => strLe a b = true) :=
    ⟨fun a b hab hba => String.ext (charsLe_antisymm a.toList b.toList hab hba)⟩
  have hperm : (List.insertionSort (fun a b => strLe a b = true) l₁).Perm
      (List.insertionSort (fun a b => strLe a b = true) l₂) :=
    ((List.perm_insertionSort _ _).trans h).trans (List.perm_insertionSort _ _).symm
  have hs1 : List.Sorted (fun a b => strLe a b = true)
      (List.insertionSort (fun a b => strLe a b = true) l₁) :=
    List.sorted_insertionSort _ _
  have hs2 : List.Sorted (fun a b => strLe a b = true)
      (List.insertionSort (fun a b => strLe a b = true) l₂) :=
    List.sorted_insertionSort _ _
  exact List.eq_of_perm_of_sorted hperm hs1 hs2

/-- C8: `fit` is order-insensitive: fitting two corpora that are permutations
of each other produces identical embedder states — the same sorted vocabulary
with the same index assignment and the identical idf sequence. -/
theorem claim_C8 (docs₁ docs₂ : List String) (h : docs₁.Perm docs₂) :
    fit docs₁ = fit docs₂ := by
  have hsets : (docTokenSets docs₁).Perm (docTokenSets docs₂) :=
    h.map (fun doc => (tokenize doc).dedup)
  have hvocab : fitVocab docs₁ = fitVocab docs₂ :=
    sortStrings_eq_of_perm (hsets.flatten.dedup)
  have hidf : fitIdf docs₁ = fitIdf docs₂ := by
    rw [fitIdf, fitIdf, hvocab]
    apply List.map_congr_left
    intro token _
    rw [idfScore, idfScore, h.length_eq]
    have hdf : dfCount docs₁ token = dfCount docs₂ token :=
      List.Perm.countP_eq _ hsets
    rw [hdf]
  rw [fit, fit, hvocab, hidf]

/-- Witness for C8 at a concrete permutation of a two-document corpus. -/
theorem claim_C8_witness : fit ["b a", "c"] = fit ["c", "b a"] :=
  claim_C8 ["b a", "c"] ["c", "b a"] (List.Perm.swap "c" "b a" [])

lemma upsertA_of_not_mem {κ β : Type} [DecidableEq κ] {m : List (κ × β)} {k : κ} (v : β)
    (h : k ∉ m.map Prod.fst) : upsertA m k v = m ++ [(k, v)] := by
  induction m with
  | nil => rfl
  | cons p rest ih =>
    obtain ⟨k', v'⟩ := p
    simp only [List.map_cons, List.mem_cons, not_or] at h
    rw [upsertA, if_neg (fun hEq => h.1 hEq.symm), ih h.2]
    rfl

lemma extract_entities_foldl (mf : Int) :
    ∀ (es : List (String × Nat)) (m : List (String × Entity)),
    (∀ p ∈ es, mf ≤ (p.2 : Int) → deriveEntityId p.1 ∉ m.map Prod.fst) →
    ((es.filter (fun p => decide (mf ≤ (p.2 : Int)))).map (fun p => deriveEntityId p.1)).Nodup →
    es.foldl (fun m p =>
      if (p.2 : Int) < mf then m
      else upsertA m (deriveEntityId p.1) ⟨deriveEntityId p.1, p.1, p.2⟩) m
    = m ++ (es.filter (fun p => decide (mf ≤ (p.2 : Int)))).map
        (fun p => (deriveEntityId p.1, (⟨deriveEntityId p.1, p.1, p.2⟩ : Entity)))
  | [], m, _, _ => by simp
  | p :: rest, m, hfresh, hnd => by
    by_cases hkeep : (p.2 : Int) < mf
    · have hfilter : decide (mf ≤ (p.2 : Int)) = false := by
        simp [not_le.mpr hkeep]
      have hfc : (p :: rest).filter (fun q => decide (mf ≤ (q.2 : Int)))
          = rest.filter (fun q => decide (mf ≤ (q.2 : Int))) :=
        List.filter_cons_of_neg (by simp [hfilter])
      rw [List.foldl_cons, if_pos hkeep, hfc]
      refine extract_entities_foldl mf rest m (fun q hq => hfresh q (List.mem_cons_of_mem p hq)) ?_
      rwa [hfc] at hnd
    · have hle : mf ≤ (p.2 : Int) := not_lt.mp hkeep
      have hfilter : decide (mf ≤ (p.2 : Int)) = true := by simp [hle]
      have hfc : (p :: rest).filter (fun q => decide (mf ≤ (q.2 : Int)))
          = p :: rest.filter (fun q => decide (mf ≤ (q.2 : Int))) :=
        List.filter_cons_of_pos hfilter
      rw [hfc] at hnd
      simp only [List.map_cons, List.nodup_cons] at hnd
      rw [List.foldl_cons, if_neg hkeep,
        upsertA_of_not_mem _ (hfresh p (List.mem_cons_self p rest) hle)]
      rw [extract_entities_foldl mf rest
        (m ++ [(deriveEntityId p.1, (⟨deriveEntityId p.1, p.1, p.2⟩ : Entity))]) ?_ hnd.2]
      · rw [hfc, List.map_cons, List.append_assoc]
        rfl
      · intro q hq hqle
        simp only [List.map_append, List.mem_append, List.map_cons, List.map_nil,
          List.mem_singleton, not_or]
        refine ⟨hfresh q (List.mem_cons_of_mem p hq) hqle, fun hEq => hnd.1 ?_⟩
        rw [← hEq]
        exact List.mem_map.mpr ⟨q, List.mem_filter.mpr ⟨hq, by simp [hqle]⟩, rfl⟩

lemma extract_entities_eq (chunks : List Chunk) (mf : Int)
    (hnd : (((labelCounter chunks).filter (fun p => decide (mf ≤ (p.2 : Int)))).map
      (fun p => deriveEntityId p.1)).Nodup) :
    extract_entities chunks mf
    = ((labelCounter chunks).filter (fun p => decide (mf ≤ (p.2 : Int)))).map
        (fun p => (deriveEntityId p.1, (⟨deriveEntityId p.1, p.1, p.2⟩ : Entity))) := by
  rw [extract_entities, extract_entities_foldl mf (labelCounter chunks) [] (by simp) hnd]
  simp

lemma mem_labelCounter {chunks : List Chunk} {p : String × Nat} :
    p ∈ labelCounter chunks
    ↔ p.1 ∈ corpusLabels chunks ∧ p.2 = (corpusLabels chunks).count p.1 := by
  obtain ⟨a, b⟩ := p
  simp only [labelCounter, List.mem_map, mem_dedupFirst, Prod.mk.injEq]
  constructor
  · rintro ⟨l, hl, rfl, rfl⟩
    exact ⟨hl, rfl⟩
  · rintro ⟨hl, rfl⟩
    exact ⟨a, hl, rfl, rfl⟩

/-- C5 (amended): provided the derived ids of the qualifying labels are
pairwise distinct (true whenever no two distinct qualifying labels differ only
by letter case, and in particular for the counterexample-free common case),
`extract_entities` returns exactly the labels whose corpus-wide count of
pattern matches is at least `min_freq` — a label occurring exactly `min_freq`
times is included, one occurring `min_freq - 1` times is excluded — each keyed
by the entity id derived from the label (lowercased, spaces to underscores)
and carrying its total frequency; and `min_freq ≤ 0` keeps all candidate
labels without crashing. -/
theorem claim_C5_amended (chunks : List Chunk) (min_freq : Int)
    (hinj : (((labelCounter chunks).filter (fun p => decide (min_freq ≤ (p.2 : Int)))).map
      (fun p => deriveEntityId p.1)).Nodup) :
    (∀ label : String,
      (label ∈ corpusLabels chunks ∧ min_freq ≤ ((corpusLabels chunks).count label : Int))
      ↔ ∃ p ∈ extract_entities chunks min_freq, p.2.label = label)
    ∧ (∀ p ∈ extract_entities chunks min_freq,
        p.1 = deriveEntityId p.2.label ∧ p.2.entity_id = p.1
        ∧ p.2.frequency = (corpusLabels chunks).count p.2.label
        ∧ min_freq ≤ (p.2.frequency : Int))
    ∧ (min_freq ≤ 0 → ∀ label ∈ corpusLabels chunks,
        ∃ p ∈ extract_entities chunks min_freq, p.2.label = label) := by
  rw [extract_entities_eq chunks min_freq hinj]
  have hmain : ∀ label : String,
      (label ∈ corpusLabels chunks ∧ min_freq ≤ ((corpusLabels chunks).count label : Int))
      ↔ ∃ p ∈ ((labelCounter chunks).filter (fun p => decide (min_freq ≤ (p.2 : Int)))).map
          (fun p => (deriveEntityId p.1, (⟨deriveEntityId p.1, p.1, p.2⟩ : Entity))),
          p.2.label = label := by
    intro label
    constructor
    · rintro ⟨hmem, hcnt⟩
      refine ⟨(deriveEntityId label, ⟨deriveEntityId label, label, (corpusLabels chunks).count label⟩),
        List.mem_map.mpr ⟨(label, (corpusLabels chunks).count label), ?_, rfl⟩, rfl⟩
      exact List.mem_filter.mpr ⟨mem_labelCounter.mpr ⟨hmem, rfl⟩, by simp [hcnt]⟩
    · rintro ⟨p, hp, hlab⟩
      obtain ⟨q, hq, rfl⟩ := List.mem_map.mp hp
      obtain ⟨hq1, hq2⟩ := List.mem_filter.mp hq
      obtain ⟨hql, hqc⟩ := mem_labelCounter.mp hq1
      simp only at hlab
      subst hlab
      refine ⟨hql, ?_⟩
      rw [← hqc]
      simpa using hq2
  refine ⟨hmain, ?_, ?_⟩
  · intro p hp
    obtain ⟨q, hq, rfl⟩ := List.mem_map.mp hp
    obtain ⟨hq1, hq2⟩ := List.mem_filter.mp hq
    obtain ⟨hql, hqc⟩ := mem_labelCounter.mp hq1
    refine ⟨rfl, rfl, by simpa using hqc, ?_⟩
    simpa [hqc] using hq2
  · intro hle label hlabel
    refine (hmain label).mp ⟨hlabel, ?_⟩
    have hpos : 0 < (corpusLabels chunks).count label := List.count_pos_iff.mpr hlabel
    omega

/-- Witness for C5 (amended): "Alice" occurs 3 times (at least `min_freq = 2`)
in the corpus, so an entity labelled "Alice" is extracted. -/
theorem claim_C5_amended_witness :
    ∃ p ∈ extract_entities [⟨"c1", "d", "Alice met Bob. Alice again; Alice"⟩] 2,
      p.2.label = "Alice" :=
  ((claim_C5_amended [⟨"c1", "d", "Alice met Bob. Alice again; Alice"⟩] 2
    (by decide)).1 "Alice").mp (by decide)

/-- Counterexample to C5 as stated: in the corpus "AB. AB. Ab. Ab." both
labels "AB" and "Ab" occur exactly 2 ≥ `min_freq` times, but both derive the
entity id "ab", so the dict assignment keeps only the later label "Ab": the
qualifying label "AB" is not in the result. -/
theorem claim_C5_counterexample :
    ((extract_entities [⟨"c1", "d", "AB. AB. Ab. Ab."⟩] 2).map (fun p => p.2.label)) = ["Ab"]
    ∧ (corpusLabels [⟨"c1", "d", "AB. AB. Ab. Ab."⟩]).count "AB" = 2 := by
  constructor
  · decide
  · decide

lemma lookupA_eq_none_iff {κ β : Type} [DecidableEq κ] :
    ∀ (m : List (κ × β)) (k : κ), lookupA m k = none ↔ k ∉ m.map Prod.fst
  | [], k => by simp [lookupA]
  | (k', v) :: rest, k => by
    by_cases h : k' = k
    · subst h
      simp [lookupA]
    · simp only [lookupA, if_neg h, List.map_cons, List.mem_cons, not_or,
        lookupA_eq_none_iff rest k]
      constructor
      · exact fun hr => ⟨fun hEq => h hEq.symm, hr⟩
      · exact fun hr => hr.2

lemma lookupA_mem {κ β : Type} [DecidableEq κ] :
    ∀ {m : List (κ × β)} {k : κ} {v : β}, lookupA m k = some v → (k, v) ∈ m
  | [], k, v, h => by simp [lookupA] at h
  | (k', v') :: rest, k, v, h => by
    by_cases hk : k' = k
    · subst hk
      rw [lookupA, if_pos rfl] at h
      simp [Option.some.inj h]
    · rw [lookupA, if_neg hk] at h
      exact List.mem_cons_of_mem _ (lookupA_mem h)

lemma lookupA_eq_some_of_mem {κ β : Type} [DecidableEq κ] :
    ∀ {m : List (κ × β)}, (m.map Prod.fst).Nodup →
      ∀ {k : κ} {v : β}, (k, v) ∈ m → lookupA m k = some v
  | [], _, k, v, h => by simp at h
  | (k', v') :: rest, hnd, k, v, h => by
    simp only [List.map_cons, List.nodup_cons] at hnd
    rcases List.mem_cons.mp h with h1 | h1
    · cases h1
      rw [lookupA, if_pos rfl]
    · have hne : k' ≠ k := by
        intro hEq
        subst hEq
        exact hnd.1 (List.mem_map.mpr ⟨(k', v), h1, rfl⟩)
      rw [lookupA, if_neg hne]
      exact lookupA_eq_some_of_mem hnd.2 h1

lemma nodup_keys_val_eq {κ β : Type} [DecidableEq κ] {m : List (κ × β)}
    (hnd : (m.map Prod.fst).Nodup) {k : κ} {a b : β}
    (ha : (k, a) ∈ m) (hb : (k, b) ∈ m) : a = b := by
  have h1 := lookupA_eq_some_of_mem hnd ha
  have h2 := lookupA_eq_some_of_mem hnd hb
  rw [h1] at h2
  exact Option.some.inj h2

lemma foldl_upsertA_eq {α κ β : Type} [DecidableEq κ] (f : α → κ × β) :
    ∀ (es : List α) (m : List (κ × β)),
    ((es.map (fun a => (f a).1)).Nodup) → (∀ a ∈ es, (f a).1 ∉ m.map Prod.fst) →
    es.foldl (fun m a => upsertA m (f a).1 (f a).2) m = m ++ es.map f
  | [], m, _, _ => by simp
  | a :: rest, m, hnd, hfresh => by
    simp only [List.map_cons, List.nodup_cons] at hnd
    rw [List.foldl_cons, upsertA_of_not_mem _ (hfresh a (List.mem_cons_self a rest)),
      foldl_upsertA_eq f rest (m ++ [((f a).1, (f a).2)]) hnd.2 ?_]
    · rw [List.map_cons, List.append_assoc]
      rfl
    · intro q hq
      simp only [List.map_append, List.mem_append, not_or, List.map_cons, List.map_nil,
        List.mem_singleton]
      refine ⟨hfresh q (List.mem_cons_of_mem a hq), fun hEq => hnd.1 ?_⟩
      rw [← hEq]
      exact List.mem_map.mpr ⟨q, hq, rfl⟩

lemma entityLabels_eq (entities : List (String × Entity))
    (hl : (entities.map (fun p => p.2.label)).Nodup) :
    entityLabels entities = entities.map (fun p => (p.2.label, p.1)) := by
  rw [entityLabels]
  have h := foldl_upsertA_eq (fun p : String × Entity => (p.2.label, p.1)) entities []
    (by simpa using hl) (by simp)
  simpa using h

lemma listPairs_mem_parts : ∀ {l : List String} {x y : String},
    (x, y) ∈ listPairs l → x ∈ l ∧ y ∈ l
  | [], x, y, h => by simp [listPairs] at h
  | a :: rest, x, y, h => by
    rw [listPairs] at h
    rcases List.mem_append.mp h with h1 | h1
    · obtain ⟨b, hb, hEq⟩ := List.mem_map.mp h1
      cases hEq
      exact ⟨List.mem_cons_self _ _, List.mem_cons_of_mem _ hb⟩
    · obtain ⟨hx, hy⟩ := listPairs_mem_parts h1
      exact ⟨List.mem_cons_of_mem _ hx, List.mem_cons_of_mem _ hy⟩

lemma listPairs_nodup : ∀ {l : List String}, l.Nodup → (listPairs l).Nodup
  | [], _ => by simp [listPairs]
  | a :: rest, hnd => by
    simp only [List.nodup_cons] at hnd
    rw [listPairs]
    refine List.Nodup.append ?_ (listPairs_nodup hnd.2) ?_
    · exact hnd.2.map (fun y₁ y₂ h => (Prod.ext_iff.mp h).2)
    · intro p hp1 hp2
      obtain ⟨x, y⟩ := p
      obtain ⟨b, _, hEq⟩ := List.mem_map.mp hp1
      injection hEq with hEq1 hEq2
      subst hEq1
      subst hEq2
      exact hnd.1 (listPairs_mem_parts hp2).1

lemma listPairs_mem_of_sorted : ∀ {l : List String},
    List.Pairwise (fun a b => strLe a b = true ∧ a ≠ b) l → ∀ {x y : String},
    ((x, y) ∈ listPairs l ↔ x ∈ l ∧ y ∈ l ∧ strLe x y = true ∧ x ≠ y)
  | [], _, x, y => by simp [listPairs]
  | a :: rest, hpw, x, y => by
    rw [List.pairwise_cons] at hpw
    rw [listPairs]
    constructor
    · intro h
      rcases List.mem_append.mp h with h1 | h1
      · obtain ⟨b, hb, hEq⟩ := List.mem_map.mp h1
        injection hEq with hEq1 hEq2
        subst hEq1
        subst hEq2
        obtain ⟨hle, hne⟩ := hpw.1 b hb
        exact ⟨List.mem_cons_self _ _, List.mem_cons_of_mem _ hb, hle, hne⟩
      · obtain ⟨hx, hy, hle, hne⟩ := (listPairs_mem_of_sorted hpw.2).mp h1
        exact ⟨List.mem_cons_of_mem _ hx, List.mem_cons_of_mem _ hy, hle, hne⟩
    · rintro ⟨hx, hy, hle, hne⟩
      rcases List.mem_cons.mp hx with rfl | hx'
      · rcases List.mem_cons.mp hy with rfl | hy'
        · exact absurd rfl hne
        · exact List.mem_append.mpr (Or.inl (List.mem_map.mpr ⟨y, hy', rfl⟩))
      · rcases List.mem_cons.mp hy with rfl | hy'
        · obtain ⟨hle', hne'⟩ := hpw.1 x hx'
          exact absurd (String.ext (charsLe_antisymm _ _ hle hle')) hne
        · exact List.mem_append.mpr (Or.inr ((listPairs_mem_of_sorted hpw.2).mpr
            ⟨hx', hy', hle, hne⟩))

lemma chunkEntityIds_nodup (entities : List (String × Entity)) (c : Chunk) :
    (chunkEntityIds entities c).Nodup :=
  ((List.perm_insertionSort _ _).nodup_iff).mpr (nodup_dedupFirst _)

lemma chunkEntityIds_pairwise (entities : List (String × Entity)) (c : Chunk) :
    List.Pairwise (fun a b => strLe a b = true ∧ a ≠ b) (chunkEntityIds entities c) := by
  haveI : IsTotal String (fun a b => strLe a b = true) :=
    ⟨fun a b => charsLe_total a.toList b.toList⟩
  haveI : IsTrans String (fun a b => strLe a b = true) :=
    ⟨fun a b c => charsLe_trans a.toList b.toList c.toList⟩
  have hs : List.Sorted (fun a b => strLe a b = true) (chunkEntityIds entities c) :=
    List.sorted_insertionSort _ _
  exact hs.and (chunkEntityIds_nodup entities c)

lemma mem_chunkEntityIds_iff (entities : List (String × Entity)) (c : Chunk) {k : String} :
    k ∈ chunkEntityIds entities c
    ↔ ∃ m ∈ entityMatches c.text, lookupA (entityLabels entities) m = some k := by
  rw [chunkEntityIds, sortStrings, (List.perm_insertionSort _ _).mem_iff, mem_dedupFirst]
  simp [List.mem_filterMap]

lemma mem_chunkEntityIds (entities : List (String × Entity))
    (hk : (entities.map Prod.fst).Nodup) (hl : (entities.map (fun p => p.2.label)).Nodup)
    (c : Chunk) {k : String} {e : Entity} (hke : (k, e) ∈ entities) :
    k ∈ chunkEntityIds entities c ↔ e.label ∈ entityMatches c.text := by
  rw [mem_chunkEntityIds_iff]
  have hEL : entityLabels entities = entities.map (fun p => (p.2.label, p.1)) :=
    entityLabels_eq entities hl
  have hELkeys : ((entityLabels entities).map Prod.fst).Nodup := by
    rw [hEL]
    simpa [List.map_map, Function.comp] using hl
  constructor
  · rintro ⟨m, hm, hlook⟩
    have hmem : (m, k) ∈ entityLabels entities := lookupA_mem hlook
    rw [hEL] at hmem
    obtain ⟨⟨k', e'⟩, hke', hEq⟩ := List.mem_map.mp hmem
    have h1 : e'.label = m := congrArg Prod.fst hEq
    have h2 : k' = k := congrArg Prod.snd hEq
    subst h2
    have he : e' = e := nodup_keys_val_eq hk hke' hke
    rw [← h1, he] at hm
    exact hm
  · intro hm
    refine ⟨e.label, hm, ?_⟩
    apply lookupA_eq_some_of_mem hELkeys
    rw [hEL]
    exact List.mem_map.mpr ⟨(k, e), hke, rfl⟩

lemma mem_chunkPairs (entities : List (String × Entity))
    (hk : (entities.map Prod.fst).Nodup) (hl : (entities.map (fun p => p.2.label)).Nodup)
    (c : Chunk) {k₁ k₂ : String} {e₁ e₂ : Entity}
    (h₁ : (k₁, e₁) ∈ entities) (h₂ : (k₂, e₂) ∈ entities)
    (hle : strLe k₁ k₂ = true) (hne : k₁ ≠ k₂) :
    ((k₁, k₂) ∈ listPairs (chunkEntityIds entities c)
    ↔ (e₁.label ∈ entityMatches c.text ∧ e₂.label ∈ entityMatches c.text)) := by
  rw [listPairs_mem_of_sorted (chunkEntityIds_pairwise entities c),
    mem_chunkEntityIds entities hk hl c h₁, mem_chunkEntityIds entities hk hl c h₂]
  simp [hle, hne]

lemma strLt_iff {a b : String} : strLt a b = true ↔ strLe a b = true ∧ a ≠ b := by
  simp [strLt]

lemma lookupA_bumpPair_self : ∀ (m : List ((String × String) × Nat)) (k : String × String),
    lookupA (bumpPair m k) k = some ((lookupA m k).getD 0 + 1)
  | [], k => by simp [bumpPair, lookupA]
  | (k', v) :: rest, k => by
    by_cases h : k' = k
    · subst h
      rw [bumpPair, if_pos rfl, lookupA, if_pos rfl, lookupA, if_pos rfl]
      rfl
    · rw [bumpPair, if_neg h, lookupA, if_neg h, lookupA, if_neg h]
      exact lookupA_bumpPair_self rest k

lemma lookupA_bumpPair_ne : ∀ (m : List ((String × String) × Nat)) {k k' : String × String},
    k' ≠ k → lookupA (bumpPair m k) k' = lookupA m k'
  | [], k, k', h => by
    have hne : ¬ (k = k') := fun hEq => h hEq.symm
    simp [bumpPair, lookupA, hne]
  | (q, v) :: rest, k, k', h => by
    by_cases hq : q = k
    · subst hq
      rw [bumpPair, if_pos rfl]
      have hne : q ≠ k' := fun hEq => h (hEq ▸ rfl)
      rw [lookupA, if_neg hne, lookupA, if_neg hne]
    · rw [bumpPair, if_neg hq]
      by_cases hqk' : q = k'
      · subst hqk'
        rw [lookupA, if_pos rfl, lookupA, if_pos rfl]
      · rw [lookupA, if_neg hqk', lookupA, if_neg hqk']
        exact lookupA_bumpPair_ne rest h

lemma lookupA_foldl_bumpPair : ∀ (ks : List (String × String))
    (m : List ((String × String) × Nat)) (k : String × String),
    (lookupA (ks.foldl bumpPair m) k).getD 0
    = (lookupA m k).getD 0 + ks.countP (fun x => decide (x = k))
  | [], m, k => by simp
  | k₀ :: ks, m, k => by
    rw [List.foldl_cons, lookupA_foldl_bumpPair ks (bumpPair m k₀) k, List.countP_cons]
    by_cases h : k = k₀
    · subst h
      rw [lookupA_bumpPair_self m k]
      simp
      omega
    · rw [lookupA_bumpPair_ne m h]
      have hne : ¬ (k₀ = k) := fun hEq => h hEq.symm
      simp [hne]

lemma bumpPair_keys : ∀ (m : List ((String × String) × Nat)) (k : String × String),
    (bumpPair m k).map Prod.fst
    = if k ∈ m.map Prod.fst then m.map Prod.fst else m.map Prod.fst ++ [k]
  | [], k => by simp [bumpPair]
  | (k', v) :: rest, k => by
    by_cases h : k' = k
    · subst h
      simp [bumpPair]
    · rw [bumpPair, if_neg h]
      simp only [List.map_cons, bumpPair_keys rest k, List.mem_cons]
      have hne : ¬ (k = k') := fun hEq => h hEq.symm
      by_cases hm : k ∈ rest.map Prod.fst
      · simp [hm, hne]
      · simp [hm, hne]

lemma bumpPair_values : ∀ (m : List ((String × String) × Nat)) (k : String × String),
    (∀ p ∈ m, 1 ≤ p.2) → ∀ p ∈ bumpPair m k, 1 ≤ p.2
  | [], k, _, p, hp => by
    simp only [bumpPair, List.mem_singleton] at hp
    subst hp
    exact le_refl 1
  | (k', v) :: rest, k, h, p, hp => by
    by_cases hk : k' = k
    · subst hk
      rw [bumpPair, if_pos rfl] at hp
      rcases List.mem_cons.mp hp with rfl | hp'
      · exact Nat.le_add_left 1 v
      · exact h p (List.mem_cons_of_mem _ hp')
    · rw [bumpPair, if_neg hk] at hp
      rcases List.mem_cons.mp hp with rfl | hp'
      · exact h _ (List.mem_cons_self _ _)
      · exact bumpPair_values rest k (fun q hq => h q (List.mem_cons_of_mem _ hq)) p hp'

lemma foldl_bumpPair_values : ∀ (ks : List (String × String))
    (m : List ((String × String) × Nat)), (∀ p ∈ m, 1 ≤ p.2) →
    ∀ p ∈ ks.foldl bumpPair m, 1 ≤ p.2
  | [], _, h => h
  | k₀ :: ks, m, h => by
    rw [List.foldl_cons]
    exact foldl_bumpPair_values ks (bumpPair m k₀) (bumpPair_values m k₀ h)

lemma foldl_bumpPair_keys_nodup : ∀ (ks : List (String × String))
    (m : List ((String × String) × Nat)),
    ((m.map Prod.fst).Nodup) → (((ks.foldl bumpPair m).map Prod.fst).Nodup)
  | [], _, h => h
  | k₀ :: ks, m, h => by
    rw [List.foldl_cons]
    refine foldl_bumpPair_keys_nodup ks _ ?_
    rw [bumpPair_keys]
    by_cases hm : k₀ ∈ m.map Prod.fst
    · simpa [hm] using h
    · simp [hm, List.nodup_append, h]

lemma foldl_bumpPair_keys_sub : ∀ (ks : List (String × String))
    (m : List ((String × String) × Nat)) {k : String × String},
    k ∈ (ks.foldl bumpPair m).map Prod.fst → k ∈ m.map Prod.fst ∨ k ∈ ks
  | [], _, _, h => Or.inl h
  | k₀ :: ks, m, k, h => by
    rw [List.foldl_cons] at h
    rcases foldl_bumpPair_keys_sub ks (bumpPair m k₀) h with h1 | h1
    · rw [bumpPair_keys] at h1
      by_cases hm : k₀ ∈ m.map Prod.fst
      · rw [if_pos hm] at h1
        exact Or.inl h1
      · rw [if_neg hm] at h1
        rcases List.mem_append.mp h1 with h2 | h2
        · exact Or.inl h2
        · simp only [List.mem_singleton] at h2
          subst h2
          exact Or.inr (List.mem_cons_self _ _)
    · exact Or.inr (List.mem_cons_of_mem _ h1)

lemma countP_eq_key_of_nodup : ∀ {l : List (String × String)}, l.Nodup →
    ∀ k : String × String, l.countP (fun x => decide (x = k)) = if k ∈ l then 1 else 0
  | [], _, k => by simp
  | a :: l, hnd, k => by
    simp only [List.nodup_cons] at hnd
    rw [List.countP_cons, countP_eq_key_of_nodup hnd.2 k]
    by_cases h : a = k
    · subst h
      simp [hnd.1]
    · have hne : ¬ (k = a) := fun hEq => h hEq.symm
      by_cases hm : k ∈ l <;> simp [h, hm, hne]

lemma relationCounter_fold_lookup (entities : List (String × Entity)) :
    ∀ (chunks : List Chunk) (m : List ((String × String) × Nat)) (k : String × String),
    (lookupA (chunks.foldl
        (fun m c => (listPairs (chunkEntityIds entities c)).foldl bumpPair m) m) k).getD 0
    = (lookupA m k).getD 0
      + chunks.countP (fun c => decide (k ∈ listPairs (chunkEntityIds entities c)))
  | [], m, k => by simp
  | c :: chunks, m, k => by
    rw [List.foldl_cons, relationCounter_fold_lookup entities chunks _ k,
      lookupA_foldl_bumpPair]
    have hcnt : (listPairs (chunkEntityIds entities c)).countP (fun x => decide (x = k))
        = if k ∈ listPairs (chunkEntityIds entities c) then 1 else 0 :=
      countP_eq_key_of_nodup (listPairs_nodup (chunkEntityIds_nodup entities c)) k
    rw [hcnt, List.countP_cons]
    by_cases hm : k ∈ listPairs (chunkEntityIds entities c) <;> simp [hm] <;> omega

lemma relationCounter_fold_keys_sub (entities : List (String × Entity)) :
    ∀ (chunks : List Chunk) (m : List ((String × String) × Nat)) {k : String × String},
    k ∈ ((chunks.foldl
        (fun m c => (listPairs (chunkEntityIds entities c)).foldl bumpPair m) m).map Prod.fst) →
    k ∈ m.map Prod.fst ∨ ∃ c ∈ chunks, k ∈ listPairs (chunkEntityIds entities c)
  | [], _, _, h => Or.inl h
  | c :: chunks, m, k, h => by
    rw [List.foldl_cons] at h
    rcases relationCounter_fold_keys_sub entities chunks _ h with h1 | h1
    · rcases foldl_bumpPair_keys_sub _ m h1 with h2 | h2
      · exact Or.inl h2
      · exact Or.inr ⟨c, List.mem_cons_self _ _, h2⟩
    · obtain ⟨c', hc', hk'⟩ := h1
      exact Or.inr ⟨c', List.mem_cons_of_mem _ hc', hk'⟩

lemma relationCounter_fold_keys_nodup (entities : List (String × Entity)) :
    ∀ (chunks : List Chunk) (m : List ((String × String) × Nat)),
    ((m.map Prod.fst).Nodup) →
    (((chunks.foldl
        (fun m c => (listPairs (chunkEntityIds entities c)).foldl bumpPair m) m).map
          Prod.fst).Nodup)
  | [], _, h => h
  | c :: chunks, m, h => by
    rw [List.foldl_cons]
    exact relationCounter_fold_keys_nodup entities chunks _ (foldl_bumpPair_keys_nodup _ m h)

lemma relationCounter_fold_values (entities : List (String × Entity)) :
    ∀ (chunks : List Chunk) (m : List ((String × String) × Nat)),
    (∀ p ∈ m, 1 ≤ p.2) →
    ∀ p ∈ chunks.foldl
        (fun m c => (listPairs (chunkEntityIds entities c)).foldl bumpPair m) m, 1 ≤ p.2
  | [], _, h => h
  | c :: chunks, m, h => by
    rw [List.foldl_cons]
    exact relationCounter_fold_values entities chunks _ (foldl_bumpPair_values _ m h)

lemma mem_keys_iff_lookup_pos {m : List ((String × String) × Nat)}
    (hwf : ∀ p ∈ m, 1 ≤ p.2) (k : String × String) :
    k ∈ m.map Prod.fst ↔ 1 ≤ (lookupA m k).getD 0 := by
  constructor
  · intro h
    cases hl : lookupA m k with
    | none =>
      rw [lookupA_eq_none_iff] at hl
      exact absurd h hl
    | some v =>
      have := hwf (k, v) (lookupA_mem hl)
      simpa using this
  · intro h
    by_contra hmem
    rw [← lookupA_eq_none_iff] at hmem
    simp [hmem] at h

/-- C6 (amended): for every sequence of chunks and every entity mapping in
which distinct entries carry distinct labels (as every mapping produced by
`extract_entities` does), `extract_relations` emits exactly one Relation per
unordered pair of distinct entities whose labels are both matched (by exact
label match of the extraction pattern) in at least one common chunk, with
weight equal to the number of chunks in which both are matched — weight
exactly 3.0 when they co-occur in exactly 3 chunks — no Relation at all for a
pair of entities that never appear in the same chunk, and every emitted
Relation joins two distinct entity keys in ascending order.  (When two
entries share a label, the earlier entry is shadowed in `entity_labels` and
the claim fails, see the counterexample.) -/
theorem claim_C6_amended (chunks : List Chunk) (entities : List (String × Entity))
    (hk : (entities.map Prod.fst).Nodup)
    (hl : (entities.map (fun p => p.2.label)).Nodup)
    (k₁ k₂ : String) (e₁ e₂ : Entity)
    (h₁ : (k₁, e₁) ∈ entities) (h₂ : (k₂, e₂) ∈ entities)
    (hlt : strLt k₁ k₂ = true) :
    ((extract_relations chunks entities).countP
        (fun r => decide (r.head_id = k₁ ∧ r.tail_id = k₂))
      = if chunks.any (fun c => decide (e₁.label ∈ entityMatches c.text
            ∧ e₂.label ∈ entityMatches c.text)) then 1 else 0)
    ∧ (∀ r ∈ extract_relations chunks entities, r.head_id = k₁ → r.tail_id = k₂ →
        r.weight = (chunks.countP (fun c => decide (e₁.label ∈ entityMatches c.text
            ∧ e₂.label ∈ entityMatches c.text)) : ℚ))
    ∧ (∀ r ∈ extract_relations chunks entities,
        ∃ p ∈ entities, ∃ q ∈ entities, r.head_id = p.1 ∧ r.tail_id = q.1
          ∧ strLt p.1 q.1 = true) := by
  obtain ⟨hle, hne⟩ := strLt_iff.mp hlt
  have hkeysnd : ((relationCounter chunks entities).map Prod.fst).Nodup := by
    rw [relationCounter]
    exact relationCounter_fold_keys_nodup entities chunks [] (by simp)
  have hwf : ∀ p ∈ relationCounter chunks entities, 1 ≤ p.2 := by
    rw [relationCounter]
    exact relationCounter_fold_values entities chunks [] (by simp)
  have hlook : ∀ k, (lookupA (relationCounter chunks entities) k).getD 0
      = chunks.countP (fun c => decide (k ∈ listPairs (chunkEntityIds entities c))) := by
    intro k
    rw [relationCounter, relationCounter_fold_lookup entities chunks [] k]
    simp [lookupA]
  have hcntP : chunks.countP
        (fun c => decide ((k₁, k₂) ∈ listPairs (chunkEntityIds entities c)))
      = chunks.countP (fun c => decide (e₁.label ∈ entityMatches c.text
          ∧ e₂.label ∈ entityMatches c.text)) := by
    apply List.countP_congr
    intro c _
    simp only [decide_eq_true_eq]
    exact mem_chunkPairs entities hk hl c h₁ h₂ hle hne
  have hmemkeys : (k₁, k₂) ∈ (relationCounter chunks entities).map Prod.fst
      ↔ 0 < chunks.countP (fun c => decide (e₁.label ∈ entityMatches c.text
          ∧ e₂.label ∈ entityMatches c.text)) := by
    rw [mem_keys_iff_lookup_pos hwf (k₁, k₂), hlook, hcntP]
    exact ⟨fun h => h, fun h => h⟩
  refine ⟨?_, ?_, ?_⟩
  · have hstep1 : (extract_relations chunks entities).countP
        (fun r => decide (r.head_id = k₁ ∧ r.tail_id = k₂))
        = (relationCounter chunks entities).countP
            (fun p => decide (p.1 = (k₁, k₂))) := by
      rw [extract_relations, List.countP_map]
      apply List.countP_congr
      intro p _
      simp [Prod.ext_iff]
    have hstep2 : (relationCounter chunks entities).countP
          (fun p => decide (p.1 = (k₁, k₂)))
        = ((relationCounter chunks entities).map Prod.fst).countP
            (fun x => decide (x = (k₁, k₂))) := by
      rw [List.countP_map]
      rfl
    rw [hstep1, hstep2, countP_eq_key_of_nodup hkeysnd (k₁, k₂)]
    by_cases hany : chunks.any (fun c => decide (e₁.label ∈ entityMatches c.text
        ∧ e₂.label ∈ entityMatches c.text)) = true
    · have hpos : 0 < chunks.countP (fun c => decide (e₁.label ∈ entityMatches c.text
          ∧ e₂.label ∈ entityMatches c.text)) := by
        obtain ⟨c, hc, hcp⟩ := List.any_eq_true.mp hany
        exact List.countP_pos.mpr ⟨c, hc, hcp⟩
      rw [if_pos (hmemkeys.mpr hpos), if_pos hany]
    · have hnpos : ¬ 0 < chunks.countP (fun c => decide (e₁.label ∈ entityMatches c.text
          ∧ e₂.label ∈ entityMatches c.text)) := by
        intro hpos
        obtain ⟨c, hc, hcp⟩ := List.countP_pos.mp hpos
        exact hany (List.any_eq_true.mpr ⟨c, hc, hcp⟩)
      rw [if_neg (fun hmem => hnpos (hmemkeys.mp hmem)), if_neg hany]
  · intro r hr hh ht
    rw [extract_relations] at hr
    obtain ⟨p, hp, rfl⟩ := List.mem_map.mp hr
    have hkey : p.1 = (k₁, k₂) := Prod.ext hh ht
    have hlookp : lookupA (relationCounter chunks entities) p.1 = some p.2 :=
      lookupA_eq_some_of_mem hkeysnd hp
    have hval : p.2 = chunks.countP (fun c => decide (e₁.label ∈ entityMatches c.text
        ∧ e₂.label ∈ entityMatches c.text)) := by
      have h := hlook p.1
      rw [hlookp] at h
      simp only [Option.getD_some] at h
      rw [h, hkey, hcntP]
    show (p.2 : ℚ) = _
    exact_mod_cast congrArg (fun n : Nat => (n : ℚ)) hval
  · intro r hr
    rw [extract_relations] at hr
    obtain ⟨p, hp, rfl⟩ := List.mem_map.mp hr
    obtain ⟨⟨x, y⟩, v⟩ := p
    have hkeymem : (x, y) ∈ (relationCounter chunks entities).map Prod.fst :=
      List.mem_map.mpr ⟨((x, y), v), hp, rfl⟩
    rw [relationCounter] at hkeymem
    rcases relationCounter_fold_keys_sub entities chunks [] hkeymem with h0 | ⟨c, _, hkmem⟩
    · simp at h0
    · obtain ⟨hx, hy, hle', hne'⟩ :=
        (listPairs_mem_of_sorted (chunkEntityIds_pairwise entities c)).mp hkmem
      have idKey : ∀ z ∈ chunkEntityIds entities c, ∃ pe ∈ entities, pe.1 = z := by
        intro z hz
        obtain ⟨mlab, _, hlk⟩ := (mem_chunkEntityIds_iff entities c).mp hz
        have hmem := lookupA_mem hlk
        rw [entityLabels_eq entities hl] at hmem
        obtain ⟨pe, hpe, hEq⟩ := List.mem_map.mp hmem
        exact ⟨pe, hpe, congrArg Prod.snd hEq⟩
      obtain ⟨pe, hpe, hpe1⟩ := idKey x hx
      obtain ⟨qe, hqe, hqe1⟩ := idKey y hy
      refine ⟨pe, hpe, qe, hqe, hpe1.symm, hqe1.symm, ?_⟩
      rw [hpe1, hqe1]
      exact strLt_iff.mpr ⟨hle', hne'⟩

/-- Witness for C6 (amended): with entities alice/bob co-occurring in all
3 chunks, exactly one alice-bob relation is emitted. -/
theorem claim_C6_amended_witness :
    (extract_relations
        [⟨"c1", "d", "Alice met Bob"⟩, ⟨"c2", "d", "Alice saw Bob"⟩,
          ⟨"c3", "d", "Bob met Alice"⟩]
        [("alice", ⟨"alice", "Alice", 3⟩), ("bob", ⟨"bob", "Bob", 3⟩)]).countP
      (fun r => decide (r.head_id = "alice" ∧ r.tail_id = "bob")) = 1 := by
  have h := (claim_C6_amended
    [⟨"c1", "d", "Alice met Bob"⟩, ⟨"c2", "d", "Alice saw Bob"⟩,
      ⟨"c3", "d", "Bob met Alice"⟩]
    [("alice", ⟨"alice", "Alice", 3⟩), ("bob", ⟨"bob", "Bob", 3⟩)]
    (by decide) (by decide) "alice" "bob" ⟨"alice", "Alice", 3⟩ ⟨"bob", "Bob", 3⟩
    (by decide) (by decide) (by decide)).1
  rw [h]
  decide

/-- Counterexample to C6 as stated: with two entities sharing the label
"Alice" (keys "a" and "b") and one entity labelled "Bob" (key "c"), the labels
of the distinct entities "a" and "c" are both matched in the one chunk, yet no
relation between "a" and "c" is emitted in either orientation — the later
entry "b" shadows "a" in `entity_labels`. -/
theorem claim_C6_counterexample :
    (extract_relations [⟨"c1", "d", "Alice met Bob"⟩]
        [("a", ⟨"a", "Alice", 1⟩), ("b", ⟨"b", "Alice", 1⟩), ("c", ⟨"c", "Bob", 1⟩)]).countP
      (fun r => decide ((r.head_id = "a" ∧ r.tail_id = "c")
        ∨ (r.head_id = "c" ∧ r.tail_id = "a"))) = 0
    ∧ "Alice" ∈ entityMatches "Alice met Bob"
    ∧ "Bob" ∈ entityMatches "Alice met Bob" := by
  refine ⟨by decide, by decide, by decide⟩

lemma addNode_fresh {g : Graph} {u : String} (d : NodeData) (h : u ∉ g.nodes.map Prod.fst) :
    g.addNode u d = { nodes := g.nodes ++ [(u, d)], edges := g.edges } := by
  rw [Graph.addNode, upsertA_of_not_mem d h]

lemma foldl_addNode_eq {α : Type} (f : α → String × NodeData) :
    ∀ (es : List α) (g : Graph),
    ((es.map (fun a => (f a).1)).Nodup) → (∀ a ∈ es, (f a).1 ∉ g.nodes.map Prod.fst) →
    es.foldl (fun g a => g.addNode (f a).1 (f a).2) g
    = { nodes := g.nodes ++ es.map f, edges := g.edges }
  | [], g, _, _ => by simp
  | a :: rest, g, hnd, hfresh => by
    simp only [List.map_cons, List.nodup_cons] at hnd
    rw [List.foldl_cons, addNode_fresh (f a).2 (hfresh a (List.mem_cons_self a rest)),
      foldl_addNode_eq f rest _ hnd.2 ?_]
    · simp [List.append_assoc]
    · intro q hq
      simp only [List.map_append, List.mem_append, not_or, List.map_cons, List.map_nil,
        List.mem_singleton]
      refine ⟨hfresh q (List.mem_cons_of_mem a hq), fun hEq => hnd.1 ?_⟩
      rw [← hEq]
      exact List.mem_map.mpr ⟨q, hq, rfl⟩

lemma upsertEdge_mem : ∀ {es : List ((String × String) × EdgeData)} {u v : String}
    {d : EdgeData} {e}, e ∈ upsertEdge es u v d →
    e ∈ es ∨ (e.2 = d ∧ (e.1 = (u, v) ∨ e.1 = (v, u)))
  | [], u, v, d, e, h => by
    simp only [upsertEdge, List.mem_singleton] at h
    subst h
    exact Or.inr ⟨rfl, Or.inl rfl⟩
  | (key, d') :: rest, u, v, d, e, h => by
    by_cases hkey : key = (u, v) ∨ key = (v, u)
    · rw [upsertEdge, if_pos hkey] at h
      rcases List.mem_cons.mp h with rfl | h1
      · exact Or.inr ⟨rfl, hkey⟩
      · exact Or.inl (List.mem_cons_of_mem _ h1)
    · rw [upsertEdge, if_neg hkey] at h
      rcases List.mem_cons.mp h with rfl | h1
      · exact Or.inl (List.mem_cons_self _ _)
      · rcases upsertEdge_mem h1 with h2 | h2
        · exact Or.inl (List.mem_cons_of_mem _ h2)
        · exact Or.inr h2

lemma mem_mentionTargets {entities : List (String × Entity)} {c : Chunk} {x : String} :
    x ∈ mentionTargets entities c
    ↔ ∃ p ∈ entities, substrB p.2.label c.text = true ∧ p.1 = x := by
  simp only [mentionTargets, List.mem_filterMap]
  constructor
  · rintro ⟨p, hp, hx⟩
    by_cases hs : substrB p.2.label c.text = true
    · rw [if_pos hs] at hx
      exact ⟨p, hp, hs, Option.some.inj hx⟩
    · rw [if_neg hs] at hx
      exact absurd hx (by simp)
  · rintro ⟨p, hp, hs, rfl⟩
    exact ⟨p, hp, by rw [if_pos hs]⟩

lemma addEdge_fold_edges_mem (cid : String) (d : EdgeData) :
    ∀ (ids : List String) (g : Graph) {e},
    e ∈ (ids.foldl (fun g eid => g.addEdge cid eid d) g).edges →
    e ∈ g.edges ∨ ∃ eid ∈ ids, e.2 = d ∧ (e.1 = (cid, eid) ∨ e.1 = (eid, cid))
  | [], _, _, h => Or.inl h
  | x :: ids, g, e, h => by
    rw [List.foldl_cons] at h
    rcases addEdge_fold_edges_mem cid d ids _ h with h1 | h1
    · rcases upsertEdge_mem h1 with h2 | h2
      · exact Or.inl h2
      · exact Or.inr ⟨x, List.mem_cons_self _ _, h2.1, h2.2⟩
    · obtain ⟨eid, he, hp⟩ := h1
      exact Or.inr ⟨eid, List.mem_cons_of_mem _ he, hp⟩

lemma mentions_fold_edges_mem (entities : List (String × Entity)) :
    ∀ (chunks : List Chunk) (g : Graph) {e},
    e ∈ (chunks.foldl (fun g c => (mentionTargets entities c).foldl
        (fun g eid => g.addEdge c.chunk_id eid ⟨"mentions", 1, none⟩) g) g).edges →
    e ∈ g.edges ∨ ∃ c ∈ chunks, ∃ eid ∈ mentionTargets entities c,
      e.2 = ⟨"mentions", 1, none⟩ ∧ (e.1 = (c.chunk_id, eid) ∨ e.1 = (eid, c.chunk_id))
  | [], _, _, h => Or.inl h
  | c :: chunks, g, e, h => by
    rw [List.foldl_cons] at h
    rcases mentions_fold_edges_mem entities chunks _ h with h1 | h1
    · rcases addEdge_fold_edges_mem c.chunk_id _ _ g h1 with h2 | h2
      · exact Or.inl h2
      · obtain ⟨eid, he, hp⟩ := h2
        exact Or.inr ⟨c, List.mem_cons_self _ _, eid, he, hp⟩
    · obtain ⟨c', hc', rest⟩ := h1
      exact Or.inr ⟨c', List.mem_cons_of_mem _ hc', rest⟩

lemma relations_fold_edges_mem :
    ∀ (relations : List Relation) (g : Graph) {e},
    e ∈ (relations.foldl (fun g r =>
        if r.head_id ∈ g.nodes.map Prod.fst ∧ r.tail_id ∈ g.nodes.map Prod.fst then
          g.addEdge r.head_id r.tail_id ⟨"co_occurs", r.weight, some r.description⟩
        else g) g).edges →
    e ∈ g.edges ∨ e.2.etype = "co_occurs"
  | [], _, _, h => Or.inl h
  | r :: rels, g, e, h => by
    rw [List.foldl_cons] at h
    by_cases hc : r.head_id ∈ g.nodes.map Prod.fst ∧ r.tail_id ∈ g.nodes.map Prod.fst
    · rw [if_pos hc] at h
      rcases relations_fold_edges_mem rels _ h with h1 | h1
      · rcases upsertEdge_mem h1 with h2 | h2
        · exact Or.inl h2
        · exact Or.inr (by rw [h2.1])
      · exact Or.inr h1
    · rw [if_neg hc] at h
      rcases relations_fold_edges_mem rels _ h with h1 | h1
      · exact Or.inl h1
      · exact Or.inr h1

lemma addEdge_nodes {g : Graph} {u v : String} (d : EdgeData)
    (hu : u ∈ g.nodes.map Prod.fst) (hv : v ∈ g.nodes.map Prod.fst) :
    (g.addEdge u v d).nodes = g.nodes := by
  simp [Graph.addEdge, hu, hv]

lemma addEdge_fold_nodes (cid : String) (d : EdgeData) :
    ∀ (ids : List String) (g : Graph), cid ∈ g.nodes.map Prod.fst →
    (∀ x ∈ ids, x ∈ g.nodes.map Prod.fst) →
    (ids.foldl (fun g eid => g.addEdge cid eid d) g).nodes = g.nodes
  | [], _, _, _ => rfl
  | x :: ids, g, hc, hids => by
    rw [List.foldl_cons]
    have hnodes : (g.addEdge cid x d).nodes = g.nodes :=
      addEdge_nodes d hc (hids x (List.mem_cons_self _ _))
    rw [addEdge_fold_nodes cid d ids _ (by rw [hnodes]; exact hc)
      (fun y hy => by rw [hnodes]; exact hids y (List.mem_cons_of_mem _ hy)), hnodes]

lemma mentions_fold_nodes (entities : List (String × Entity)) :
    ∀ (chunks : List Chunk) (g : Graph),
    (∀ c ∈ chunks, c.chunk_id ∈ g.nodes.map Prod.fst) →
    (∀ c ∈ chunks, ∀ x ∈ mentionTargets entities c, x ∈ g.nodes.map Prod.fst) →
    (chunks.foldl (fun g c => (mentionTargets entities c).foldl
        (fun g eid => g.addEdge c.chunk_id eid ⟨"mentions", 1, none⟩) g) g).nodes = g.nodes
  | [], _, _, _ => rfl
  | c :: chunks, g, hcs, hts => by
    rw [List.foldl_cons]
    have hnodes : ((mentionTargets entities c).foldl
        (fun g eid => g.addEdge c.chunk_id eid ⟨"mentions", 1, none⟩) g).nodes = g.nodes :=
      addEdge_fold_nodes c.chunk_id _ _ g (hcs c (List.mem_cons_self _ _))
        (hts c (List.mem_cons_self _ _))
    rw [mentions_fold_nodes entities chunks _
      (fun c' hc' => by rw [hnodes]; exact hcs c' (List.mem_cons_of_mem _ hc'))
      (fun c' hc' x hx => by rw [hnodes]; exact hts c' (List.mem_cons_of_mem _ hc') x hx),
      hnodes]

lemma relations_fold_nodes :
    ∀ (relations : List Relation) (g : Graph),
    (relations.foldl (fun g r =>
        if r.head_id ∈ g.nodes.map Prod.fst ∧ r.tail_id ∈ g.nodes.map Prod.fst then
          g.addEdge r.head_id r.tail_id ⟨"co_occurs", r.weight, some r.description⟩
        else g) g).nodes = g.nodes
  | [], _ => rfl
  | r :: rels, g => by
    rw [List.foldl_cons]
    by_cases hc : r.head_id ∈ g.nodes.map Prod.fst ∧ r.tail_id ∈ g.nodes.map Prod.fst
    · rw [if_pos hc, relations_fold_nodes rels _, addEdge_nodes _ hc.1 hc.2]
    · rw [if_neg hc, relations_fold_nodes rels _]

/-- C7 (amended): for every input of chunks with distinct chunk ids, entities
whose dict keys are distinct and consistent with their `entity_id` fields (as
`extract_entities` guarantees), and whose keys are disjoint from the chunk
ids, and arbitrary relations, the graph returned by `build_graph` has node
count equal to the number of chunks plus the number of entities, and every
`mentions` edge connects a chunk-kind node to an entity-kind node whose label
occurs as a literal, case-sensitive substring of that chunk's text.  (When an
entity id collides with a chunk id the two inputs share one node and the
count is smaller, see the counterexample.) -/
theorem claim_C7_amended (chunks : List Chunk) (entities : List (String × Entity))
    (relations : List Relation)
    (h1 : (chunks.map Chunk.chunk_id).Nodup)
    (h2 : (entities.map Prod.fst).Nodup)
    (h3 : ∀ p ∈ entities, p.2.entity_id = p.1)
    (h4 : ∀ c ∈ chunks, ∀ p ∈ entities, c.chunk_id ≠ p.1) :
    (build_graph chunks entities relations).nodes.length = chunks.length + entities.length
    ∧ ∀ e ∈ (build_graph chunks entities relations).edges, e.2.etype = "mentions" →
        ∃ cid doc t eid lab fr,
          (cid, NodeData.chunkD doc t) ∈ (build_graph chunks entities relations).nodes
          ∧ (eid, NodeData.entityD lab fr) ∈ (build_graph chunks entities relations).nodes
          ∧ substrB lab t = true
          ∧ (e.1 = (cid, eid) ∨ e.1 = (eid, cid)) := by
  set cN := chunks.map (fun c => (c.chunk_id, NodeData.chunkD c.doc_id c.text)) with hcN
  set eN := entities.map
    (fun p => (p.2.entity_id, NodeData.entityD p.2.label p.2.frequency)) with heN
  have hph1 : chunks.foldl
      (fun (g : Graph) c => g.addNode c.chunk_id (NodeData.chunkD c.doc_id c.text))
      (Graph.mk [] [])
      = Graph.mk cN [] := by
    have h := foldl_addNode_eq (fun c : Chunk => (c.chunk_id, NodeData.chunkD c.doc_id c.text))
      chunks (Graph.mk [] []) (by simpa using h1) (by simp)
    simpa [hcN] using h
  have hids : (entities.map (fun p => p.2.entity_id)) = entities.map Prod.fst :=
    List.map_congr_left h3
  have hph2 : entities.foldl
      (fun (g : Graph) p => g.addNode p.2.entity_id (NodeData.entityD p.2.label p.2.frequency))
      (Graph.mk cN [])
      = Graph.mk (cN ++ eN) [] := by
    have h := foldl_addNode_eq
      (fun p : String × Entity => (p.2.entity_id, NodeData.entityD p.2.label p.2.frequency))
      entities (Graph.mk cN []) (by simpa [hids] using h2) ?_
    · simpa [heN] using h
    · intro p hp
      rw [hcN]
      simp only [List.map_map]
      rw [h3 p hp]
      intro hmem
      obtain ⟨c, hc, hEq⟩ := List.mem_map.mp hmem
      exact h4 c hc p hp hEq
  have hkeys2 : (Graph.mk (cN ++ eN) []).nodes.map Prod.fst
      = chunks.map Chunk.chunk_id ++ entities.map Prod.fst := by
    show (cN ++ eN).map Prod.fst = _
    rw [List.map_append]
    congr 1
    · rw [hcN, List.map_map]
      rfl
    · rw [heN, List.map_map]
      simpa [Function.comp] using hids
  have hchunkmem : ∀ c ∈ chunks, c.chunk_id ∈ (Graph.mk (cN ++ eN) []).nodes.map Prod.fst := by
    intro c hc
    rw [hkeys2]
    exact List.mem_append.mpr (Or.inl (List.mem_map.mpr ⟨c, hc, rfl⟩))
  have htargetmem : ∀ c ∈ chunks, ∀ x ∈ mentionTargets entities c,
      x ∈ (Graph.mk (cN ++ eN) []).nodes.map Prod.fst := by
    intro c _ x hx
    obtain ⟨p, hp, _, rfl⟩ := mem_mentionTargets.mp hx
    rw [hkeys2]
    exact List.mem_append.mpr (Or.inr (List.mem_map.mpr ⟨p, hp, rfl⟩))
  have hph3nodes := mentions_fold_nodes entities chunks (Graph.mk (cN ++ eN) [])
    hchunkmem htargetmem
  have hnodes : (build_graph chunks entities relations).nodes = cN ++ eN := by
    rw [build_graph, hph1, hph2, relations_fold_nodes relations _, hph3nodes]
  constructor
  · rw [hnodes, hcN, heN]
    simp
  · intro e he hetype
    rw [build_graph, hph1, hph2] at he
    rcases relations_fold_edges_mem relations _ he with h5 | h5
    · rcases mentions_fold_edges_mem entities chunks _ h5 with h6 | h6
      · simp at h6
      · obtain ⟨c, hc, eid, heid, hdata, hkey⟩ := h6
        obtain ⟨p, hp, hsub, hpeid⟩ := mem_mentionTargets.mp heid
        refine ⟨c.chunk_id, c.doc_id, c.text, eid, p.2.label, p.2.frequency, ?_, ?_, hsub, hkey⟩
        · rw [hnodes, hcN]
          exact List.mem_append.mpr (Or.inl (List.mem_map.mpr ⟨c, hc, rfl⟩))
        · rw [hnodes, heN]
          refine List.mem_append.mpr (Or.inr (List.mem_map.mpr ⟨p, hp, ?_⟩))
          rw [h3 p hp, hpeid]
    · rw [hetype] at h5
      exact absurd h5 (by decide)

/-- Witness for C7 (amended): two chunks and one entity yield three nodes,
and the claim's mentions-edge property holds. -/
theorem claim_C7_amended_witness :
    (build_graph [⟨"c1", "d", "Paris one"⟩, ⟨"c2", "d", "Paris two"⟩]
        [("paris", ⟨"paris", "Paris", 2⟩)] []).nodes.length
      = ([⟨"c1", "d", "Paris one"⟩, ⟨"c2", "d", "Paris two"⟩] : List Chunk).length
        + ([("paris", (⟨"paris", "Paris", 2⟩ : Entity))]).length :=
  (claim_C7_amended [⟨"c1", "d", "Paris one"⟩, ⟨"c2", "d", "Paris two"⟩]
    [("paris", ⟨"paris", "Paris", 2⟩)] []
    (by decide) (by decide) (by decide) (by decide)).1

/-- Counterexample to C7 as stated: a chunk with id "alice" and an entity
with id "alice" (distinct chunk ids hold trivially) produce one node, not
1 + 1 = 2 — the entity node overwrites the chunk node. -/
theorem claim_C7_counterexample :
    (build_graph [⟨"alice", "d", "x"⟩] [("alice", ⟨"alice", "Alice", 2⟩)] []).nodes.length = 1
    ∧ ([⟨"alice", "d", "x"⟩] : List Chunk).length
        + ([("alice", (⟨"alice", "Alice", 2⟩ : Entity))]).length = 2 := by
  exact ⟨by decide, by decide⟩

lemma insertDescBy_perm {α β : Type} [LinearOrder α] (score : β → α) (r : β) :
    ∀ l : List β, (insertDescBy score r l).Perm (r :: l)
  | [] => List.Perm.refl _
  | x :: xs => by
    rw [insertDescBy]
    by_cases h : score r ≤ score x
    · rw [if_pos h]
      exact ((insertDescBy_perm score r xs).cons x).trans (List.Perm.swap r x xs)
    · rw [if_neg h]

lemma foldl_insertDescBy_perm {α β : Type} [LinearOrder α] (score : β → α) :
    ∀ (l acc : List β),
    (l.foldl (fun acc r => insertDescBy score r acc) acc).Perm (acc ++ l)
  | [], acc => by simp
  | a :: l, acc => by
    rw [List.foldl_cons]
    refine (foldl_insertDescBy_perm score l _).trans ?_
    refine (List.Perm.append_right l (insertDescBy_perm score a acc)).trans ?_
    rw [List.cons_append]
    exact List.perm_middle.symm

lemma sortDescBy_perm {α β : Type} [LinearOrder α] (score : β → α) (l : List β) :
    (sortDescBy score l).Perm l := by
  have h := foldl_insertDescBy_perm score l []
  simpa [sortDescBy] using h

lemma expandInner_spec {α : Type} [LinearOrderedField α] (g : Graph)
    (idx : List (String × Chunk)) (cid : String) (base : α) (nb : String) :
    ∀ (es vis : List String),
    (expandInner g idx cid base nb es vis).2
      = vis ++ ((expandInner g idx cid base nb es vis).1.map RetrievalResult.chunk_id)
    ∧ ((expandInner g idx cid base nb es vis).1.map RetrievalResult.chunk_id).Nodup
    ∧ (∀ r ∈ (expandInner g idx cid base nb es vis).1,
        r.chunk_id ∉ vis ∧ r.chunk_id ≠ cid ∧ g.nodeType r.chunk_id = some "chunk"
        ∧ r.score = base * 0.8 ∧ r.trail = [cid, nb, r.chunk_id])
  | [], vis => by simp [expandInner]
  | e :: rest, vis => by
    by_cases h1 : e = cid
    · rw [expandInner, if_pos h1]
      exact expandInner_spec g idx cid base nb rest vis
    · by_cases h2 : e ∈ vis
      · rw [expandInner, if_neg h1, if_pos h2]
        exact expandInner_spec g idx cid base nb rest vis
      · by_cases h3 : g.nodeType e ≠ some "chunk"
        · rw [expandInner, if_neg h1, if_neg h2, if_pos h3]
          exact expandInner_spec g idx cid base nb rest vis
        · rw [expandInner, if_neg h1, if_neg h2, if_neg h3]
          have hIH := expandInner_spec g idx cid base nb rest (vis ++ [e])
          refine ⟨?_, ?_, ?_⟩
          · show (expandInner g idx cid base nb rest (vis ++ [e])).2 = _
            rw [hIH.1, List.append_assoc]
            rfl
          · show (List.map RetrievalResult.chunk_id
              (⟨e, base * 0.8, chunkTextOf idx e, [cid, nb, e]⟩
                :: (expandInner g idx cid base nb rest (vis ++ [e])).1)).Nodup
            rw [List.map_cons, List.nodup_cons]
            refine ⟨?_, hIH.2.1⟩
            intro hmem
            obtain ⟨r, hr, hrid⟩ := List.mem_map.mp hmem
            have hnv := (hIH.2.2 r hr).1
            rw [hrid] at hnv
            exact hnv (List.mem_append.mpr (Or.inr (List.mem_singleton.mpr rfl)))
          · intro r hr
            rcases List.mem_cons.mp hr with rfl | hr'
            · exact ⟨h2, h1, not_not.mp h3, rfl, rfl⟩
            · obtain ⟨hv, hc, ht, hs, htr⟩ := hIH.2.2 r hr'
              exact ⟨fun hmem => hv (List.mem_append.mpr (Or.inl hmem)), hc, ht, hs, htr⟩

lemma expandMentions_spec {α : Type} [LinearOrderedField α] (g : Graph)
    (idx : List (String × Chunk)) (cid : String) (base : α) :
    ∀ (nbs vis : List String),
    (expandMentions g idx cid base nbs vis).2
      = vis ++ ((expandMentions g idx cid base nbs vis).1.map RetrievalResult.chunk_id)
    ∧ ((expandMentions g idx cid base nbs vis).1.map RetrievalResult.chunk_id).Nodup
    ∧ (∀ r ∈ (expandMentions g idx cid base nbs vis).1,
        r.chunk_id ∉ vis ∧ r.chunk_id ≠ cid ∧ g.nodeType r.chunk_id = some "chunk"
        ∧ r.score = base * 0.8
        ∧ ∃ nb, g.edgeType cid nb = some "mentions" ∧ r.trail = [cid, nb, r.chunk_id])
  | [], vis => by simp [expandMentions]
  | nb :: rest, vis => by
    by_cases h1 : g.edgeType cid nb ≠ some "mentions"
    · rw [expandMentions, if_pos h1]
      exact expandMentions_spec g idx cid base rest vis
    · rw [expandMentions, if_neg h1]
      have hInner := expandInner_spec g idx cid base nb (g.neighbors nb) vis
      have hIH := expandMentions_spec g idx cid base rest
        (expandInner g idx cid base nb (g.neighbors nb) vis).2
      refine ⟨?_, ?_, ?_⟩
      · show (expandMentions g idx cid base rest _).2 = _
        rw [hIH.1, hInner.1, List.map_append, List.append_assoc, hInner.1]
      · rw [List.map_append]
        refine List.Nodup.append hInner.2.1 hIH.2.1 ?_
        intro x hx1 hx2
        obtain ⟨r, hr, hrid⟩ := List.mem_map.mp hx2
        have hnv := (hIH.2.2 r hr).1
        rw [hInner.1, hrid] at hnv
        exact hnv (List.mem_append.mpr (Or.inr hx1))
      · intro r hr
        rcases List.mem_append.mp hr with hr' | hr'
        · obtain ⟨hv, hc, ht, hs, htr⟩ := hInner.2.2 r hr'
          exact ⟨hv, hc, ht, hs, nb, not_not.mp h1, htr⟩
        · obtain ⟨hv, hc, ht, hs, htr⟩ := hIH.2.2 r hr'
          rw [hInner.1] at hv
          exact ⟨fun hmem => hv (List.mem_append.mpr (Or.inl hmem)), hc, ht, hs, htr⟩

lemma expandSeeds_spec {α : Type} [LinearOrderedField α] (g : Graph)
    (idx : List (String × Chunk)) :
    ∀ (tops : List (String × α)) (vis : List String),
    (∀ r ∈ expandSeeds g idx tops vis,
      (r.trail = [r.chunk_id] ∧ (r.chunk_id, r.score) ∈ tops
        ∧ r.chunk_id ∈ g.nodes.map Prod.fst)
      ∨ (∃ s sc nb, (s, sc) ∈ tops ∧ r.trail = [s, nb, r.chunk_id]
          ∧ g.edgeType s nb = some "mentions" ∧ g.nodeType r.chunk_id = some "chunk"
          ∧ r.score = sc * 0.8 ∧ r.chunk_id ≠ s))
    ∧ (((expandSeeds g idx tops vis).filter
        (fun r => decide (r.trail.length ≠ 1))).map RetrievalResult.chunk_id).Nodup
    ∧ (∀ r ∈ (expandSeeds g idx tops vis).filter (fun r => decide (r.trail.length ≠ 1)),
        r.chunk_id ∉ vis)
  | [], vis => by simp [expandSeeds]
  | (cid, sc) :: rest, vis => by
    by_cases h1 : cid ∉ g.nodes.map Prod.fst
    · rw [expandSeeds, if_pos h1]
      have hIH := expandSeeds_spec g idx rest vis
      refine ⟨fun r hr => ?_, hIH.2.1, hIH.2.2⟩
      rcases hIH.1 r hr with ⟨ht, hm, hn⟩ | ⟨s, sc', nb, hm, hrest⟩
      · exact Or.inl ⟨ht, List.mem_cons_of_mem _ hm, hn⟩
      · exact Or.inr ⟨s, sc', nb, List.mem_cons_of_mem _ hm, hrest⟩
    · rw [expandSeeds, if_neg h1]
      have hM := expandMentions_spec g idx cid sc (g.neighbors cid) vis
      have hIH := expandSeeds_spec g idx rest
        ((expandMentions g idx cid sc (g.neighbors cid) vis).2 ++ [cid])
      have hfilter : ((expandMentions g idx cid sc (g.neighbors cid) vis).1
            ++ (⟨cid, sc, chunkTextOf idx cid, [cid]⟩
              :: expandSeeds g idx rest
                ((expandMentions g idx cid sc (g.neighbors cid) vis).2 ++ [cid]))).filter
            (fun r => decide (r.trail.length ≠ 1))
          = (expandMentions g idx cid sc (g.neighbors cid) vis).1
            ++ (expandSeeds g idx rest
              ((expandMentions g idx cid sc (g.neighbors cid) vis).2 ++ [cid])).filter
                (fun r => decide (r.trail.length ≠ 1)) := by
        rw [List.filter_append, List.filter_cons_of_neg (by simp),
          List.filter_eq_self.mpr ?_]
        intro r hr
        obtain ⟨-, -, -, -, nb, -, ht⟩ := hM.2.2 r hr
        simp [ht]
      refine ⟨fun r hr => ?_, ?_, ?_⟩
      · rcases List.mem_append.mp hr with hr' | hr'
        · obtain ⟨hv, hc, htp, hs, nb, hedge, ht⟩ := hM.2.2 r hr'
          exact Or.inr ⟨cid, sc, nb, List.mem_cons_self _ _, ht, hedge, htp, hs, hc⟩
        · rcases List.mem_cons.mp hr' with rfl | hr''
          · exact Or.inl ⟨rfl, List.mem_cons_self _ _, not_not.mp h1⟩
          · rcases hIH.1 r hr'' with ⟨ht, hm, hn⟩ | ⟨s, sc', nb, hm, hrest⟩
            · exact Or.inl ⟨ht, List.mem_cons_of_mem _ hm, hn⟩
            · exact Or.inr ⟨s, sc', nb, List.mem_cons_of_mem _ hm, hrest⟩
      · rw [hfilter, List.map_append]
        refine List.Nodup.append hM.2.1 hIH.2.1 ?_
        intro x hx1 hx2
        obtain ⟨r, hr, hrid⟩ := List.mem_map.mp hx2
        have hnv := hIH.2.2 r hr
        rw [hM.1, hrid] at hnv
        exact hnv (List.mem_append.mpr (Or.inl (List.mem_append.mpr (Or.inr hx1))))
      · rw [hfilter]
        intro r hr
        rcases List.mem_append.mp hr with hr' | hr'
        · exact (hM.2.2 r hr').1
        · have hnv := hIH.2.2 r hr'
          rw [hM.1] at hnv
          exact fun hmem => hnv
            (List.mem_append.mpr (Or.inl (List.mem_append.mpr (Or.inl hmem))))

lemma expandSeeds_countP_zero {α : Type} [LinearOrderedField α] (g : Graph)
    (idx : List (String × Chunk)) (tops : List (String × α)) (vis : List String)
    (s : String) (sc : α) (hs : s ∉ tops.map Prod.fst) :
    (expandSeeds g idx tops vis).countP
      (fun r => decide (r.chunk_id = s ∧ r.score = sc ∧ r.trail = [s])) = 0 := by
  refine List.countP_eq_zero.mpr (fun r hr hpred => ?_)
  simp only [decide_eq_true_eq] at hpred
  obtain ⟨hid, hsc, htrail⟩ := hpred
  rcases (expandSeeds_spec g idx tops vis).1 r hr with ⟨ht1, hmem, -⟩ | ⟨s', sc', nb, -, ht3, -⟩
  · exact hs (List.mem_map.mpr ⟨(r.chunk_id, r.score), hmem, hid⟩)
  · rw [ht3] at htrail
    exact absurd (congrArg List.length htrail) (by simp)

lemma expandSeeds_countP_one {α : Type} [LinearOrderedField α] (g : Graph)
    (idx : List (String × Chunk)) :
    ∀ (tops : List (String × α)) (vis : List String) (s : String) (sc : α),
    ((tops.map Prod.fst).Nodup) → (s, sc) ∈ tops → s ∈ g.nodes.map Prod.fst →
    (expandSeeds g idx tops vis).countP
      (fun r => decide (r.chunk_id = s ∧ r.score = sc ∧ r.trail = [s])) = 1
  | [], _, s, sc, _, hmem, _ => absurd hmem (List.not_mem_nil _)
  | (cid, b) :: rest, vis, s, sc, hnd, hmem, hg => by
    simp only [List.map_cons, List.nodup_cons] at hnd
    by_cases h1 : cid ∉ g.nodes.map Prod.fst
    · rw [expandSeeds, if_pos h1]
      rcases List.mem_cons.mp hmem with hEq | hmem'
      · injection hEq with hEq1 hEq2
        subst hEq1
        exact absurd hg h1
      · exact expandSeeds_countP_one g idx rest vis s sc hnd.2 hmem' hg
    · rw [expandSeeds, if_neg h1]
      rw [List.countP_append, List.countP_cons]
      have hMzero : ((expandMentions g idx cid b (g.neighbors cid) vis).1).countP
          (fun r => decide (r.chunk_id = s ∧ r.score = sc ∧ r.trail = [s])) = 0 := by
        refine List.countP_eq_zero.mpr (fun r hr hpred => ?_)
        simp only [decide_eq_true_eq] at hpred
        obtain ⟨-, -, htrail⟩ := hpred
        obtain ⟨-, -, -, -, nb, -, ht⟩ :=
          (expandMentions_spec g idx cid b (g.neighbors cid) vis).2.2 r hr
        rw [ht] at htrail
        exact absurd (congrArg List.length htrail) (by simp)
      rcases List.mem_cons.mp hmem with hEq | hmem'
      · injection hEq with hEq1 hEq2
        subst hEq1
        subst hEq2
        rw [hMzero, expandSeeds_countP_zero g idx rest _ s sc hnd.1]
        simp

      · have hne : cid ≠ s := fun hEq => hnd.1 (by
          rw [hEq]
          exact List.mem_map.mpr ⟨(s, sc), hmem', rfl⟩)
        rw [hMzero, expandSeeds_countP_one g idx rest _ s sc hnd.2 hmem' hg]
        simp [hne]

lemma edgeType_mem {g : Graph} {u v t : String} (h : g.edgeType u v = some t) :
    ∃ e ∈ g.edges, e.2.etype = t ∧ (e.1 = (u, v) ∨ e.1 = (v, u)) := by
  rw [Graph.edgeType] at h
  cases hf : g.edges.find? (fun e => decide (e.1 = (u, v)) || decide (e.1 = (v, u))) with
  | none => rw [hf] at h; simp at h
  | some e =>
    rw [hf, Option.map_some'] at h
    have hmem := List.mem_of_find?_eq_some hf
    have hpred := List.find?_some hf
    simp only [Bool.or_eq_true, decide_eq_true_eq] at hpred
    exact ⟨e, hmem, Option.some.inj h, hpred⟩

/-- C1 (amended): for distinct, in-graph seeds, each seed is emitted exactly
once as a seed-type result (trail `[seed]`, its original score), and the
expansion-type results (trail length ≠ 1) carry pairwise distinct chunk ids
(first discovery wins).  However a chunk that is itself a later seed can ALSO
appear as an expansion of an earlier seed, because seed results are emitted
unconditionally, without consulting the visited set — see the
counterexample. -/
theorem claim_C1_amended {α : Type} [LinearOrderedField α] (g : Graph)
    (idx : List (String × Chunk)) (tops : List (String × α))
    (hnd : (tops.map Prod.fst).Nodup)
    (hg : ∀ p ∈ tops, p.1 ∈ g.nodes.map Prod.fst)
    (p : String × α) (hp : p ∈ tops) :
    (expand_via_graph g idx tops).countP
      (fun r => decide (r.chunk_id = p.1 ∧ r.score = p.2 ∧ r.trail = [p.1])) = 1
    ∧ (((expand_via_graph g idx tops).filter
        (fun r => decide (r.trail.length ≠ 1))).map RetrievalResult.chunk_id).Nodup := by
  constructor
  · rw [expand_via_graph, List.Perm.countP_eq _ (sortDescBy_perm _ _)]
    exact expandSeeds_countP_one g idx tops [] p.1 p.2 hnd hp (hg p hp)
  · rw [expand_via_graph]
    have hperm := ((sortDescBy_perm RetrievalResult.score
      (expandSeeds g idx tops [])).filter
        (fun r => decide (r.trail.length ≠ 1))).map RetrievalResult.chunk_id
    exact (List.Perm.nodup_iff hperm).mpr (expandSeeds_spec g idx tops []).2.1

theorem claim_C1_amended_witness :
    (expand_via_graph parisGraph parisIndex parisTops).countP
      (fun r => decide (r.chunk_id = "c1" ∧ r.score = (1 : ℚ) ∧ r.trail = ["c1"])) = 1
    ∧ (((expand_via_graph parisGraph parisIndex parisTops).filter
        (fun r => decide (r.trail.length ≠ 1))).map RetrievalResult.chunk_id).Nodup :=
  claim_C1_amended parisGraph parisIndex parisTops (by decide) (by decide)
    ("c1", 1) (List.mem_cons_self _ _)

/-- C1 counterexample: in the Paris fixture the chunk `c2` is emitted twice —
once as a seed-type result (trail `["c2"]`) and once as an expansion of the
earlier seed `c1` (trail `["c1", "paris", "c2"]`) — refuting the claim that a
chunk emitted as a seed result is never also emitted as an expansion result of
another seed. -/
theorem claim_C1_counterexample :
    (expand_via_graph parisGraph parisIndex parisTops).countP
      (fun r => decide (r.trail = ["c2"])) = 1
    ∧ (expand_via_graph parisGraph parisIndex parisTops).countP
      (fun r => decide (r.trail = ["c1", "paris", "c2"])) = 1 := by
  rw [expand_via_graph, List.Perm.countP_eq _ (sortDescBy_perm _ _),
    List.Perm.countP_eq _ (sortDescBy_perm _ _)]
  exact ⟨by decide, by decide⟩

/-- C3: on a retriever-style input (distinct seed keys with nonnegative
scores, `mentions` edges joining a chunk-kind node to an entity-kind node, and
chunk-kind seeds — all guaranteed for a built retriever), every expansion
result (trail length ≠ 1) has score exactly `0.8 *` its seed's score, a
length-3 trail `[seed, entity, expanded_chunk]` with an entity-kind middle
node and chunk-kind endpoint, and score ≤ the score of every seed-type result
for its seed. -/
theorem claim_C3 {α : Type} [LinearOrderedField α] (g : Graph)
    (idx : List (String × Chunk)) (tops : List (String × α))
    (hnd : (tops.map Prod.fst).Nodup)
    (hpos : ∀ p ∈ tops, 0 ≤ p.2)
    (hbip : ∀ e ∈ g.edges, e.2.etype = "mentions" →
      (g.nodeType e.1.1 = some "chunk" ∧ g.nodeType e.1.2 = some "entity")
      ∨ (g.nodeType e.1.1 = some "entity" ∧ g.nodeType e.1.2 = some "chunk"))
    (hseed : ∀ p ∈ tops, g.nodeType p.1 = some "chunk") :
    ∀ r ∈ expand_via_graph g idx tops, r.trail.length ≠ 1 →
      ∃ s sc ent, (s, sc) ∈ tops ∧ r.trail = [s, ent, r.chunk_id]
        ∧ r.score = 0.8 * sc ∧ r.score ≤ sc
        ∧ g.nodeType ent = some "entity" ∧ g.nodeType r.chunk_id = some "chunk"
        ∧ ∀ r' ∈ expand_via_graph g idx tops, r'.trail = [s] →
            r.score ≤ r'.score := by
  intro r hr hlen
  have hmem : r ∈ expandSeeds g idx tops [] :=
    (List.Perm.mem_iff (sortDescBy_perm _ _)).mp (by rwa [expand_via_graph] at hr)
  rcases (expandSeeds_spec g idx tops []).1 r hmem with
    ⟨ht, -, -⟩ | ⟨s, sc, nb, hmemt, ht, hedge, htype, hscore, -⟩
  · rw [ht] at hlen
    simp at hlen
  · have hstype : g.nodeType s = some "chunk" := hseed (s, sc) hmemt
    obtain ⟨e₀, he₀, hety, hkey⟩ := edgeType_mem hedge
    have hent : g.nodeType nb = some "entity" := by
      rcases hkey with hk | hk <;> rcases hbip e₀ he₀ hety with ⟨hb1, hb2⟩ | ⟨hb1, hb2⟩
      · rw [hk] at hb2
        exact hb2
      · rw [hk] at hb1
        rw [hstype] at hb1
        exact absurd hb1 (by simp)
      · rw [hk] at hb2
        rw [hstype] at hb2
        exact absurd hb2 (by simp)
      · rw [hk] at hb1
        exact hb1
    have hscnn : (0 : α) ≤ sc := hpos (s, sc) hmemt
    have hub : r.score ≤ sc := by
      rw [hscore]
      exact mul_le_of_le_one_right hscnn (by norm_num)
    refine ⟨s, sc, nb, hmemt, ht, by rw [hscore, mul_comm], hub, hent, htype, ?_⟩
    intro r' hr' htr'
    have hmem' : r' ∈ expandSeeds g idx tops [] :=
      (List.Perm.mem_iff (sortDescBy_perm _ _)).mp (by rwa [expand_via_graph] at hr')
    rcases (expandSeeds_spec g idx tops []).1 r' hmem' with
      ⟨ht', hmt', -⟩ | ⟨s', sc', nb', -, ht', -, -, -, -⟩
    · rw [htr'] at ht'
      have hid : s = r'.chunk_id := (List.cons.injEq _ _ _ _ ▸ ht').1
      rw [← hid] at hmt'
      have hval : r'.score = sc := nodup_keys_val_eq hnd hmt' hmemt
      rw [hval]
      exact hub
    · rw [htr'] at ht'
      exact absurd (congrArg List.length ht') (by simp)

theorem claim_C3_witness :
    ∃ s sc ent, (s, sc) ∈ parisTops
      ∧ (["c1", "paris", "c2"] : List String) = [s, ent, "c2"]
      ∧ (1 : ℚ) * 0.8 = 0.8 * sc ∧ (1 : ℚ) * 0.8 ≤ sc
      ∧ parisGraph.nodeType ent = some "entity"
      ∧ parisGraph.nodeType "c2" = some "chunk"
      ∧ ∀ r' ∈ expand_via_graph parisGraph parisIndex parisTops, r'.trail = [s] →
          (1 : ℚ) * 0.8 ≤ r'.score := by
  have hm : (⟨"c2", (1 : ℚ) * 0.8, chunkTextOf parisIndex "c2", ["c1", "paris", "c2"]⟩
      : RetrievalResult ℚ) ∈ expand_via_graph parisGraph parisIndex parisTops := by
    rw [expand_via_graph]
    refine (List.Perm.mem_iff (sortDescBy_perm _ _)).mpr ?_
    have hlist : expandSeeds parisGraph parisIndex parisTops []
        = [⟨"c2", (1 : ℚ) * 0.8, chunkTextOf parisIndex "c2", ["c1", "paris", "c2"]⟩,
           ⟨"c1", (1 : ℚ), chunkTextOf parisIndex "c1", ["c1"]⟩,
           ⟨"c2", (0 : ℚ), chunkTextOf parisIndex "c2", ["c2"]⟩] := rfl
    rw [hlist]
    exact List.mem_cons_self _ _
  exact claim_C3 parisGraph parisIndex parisTops (by decide)
    (by
      intro p hp
      rcases List.mem_cons.mp hp with rfl | hp'
      · exact zero_le_one
      · rcases List.mem_cons.mp hp' with rfl | hp''
        · exact le_refl 0
        · exact absurd hp'' (List.not_mem_nil _))
    (by decide) (by decide)
    _ hm (by decide)

lemma expandSeeds_single_len {α : Type} [LinearOrderedField α] (g : Graph)
    (idx : List (String × Chunk)) (cid : String) (sc : α)
    (hmem : cid ∈ g.nodes.map Prod.fst) (hnb : g.neighbors cid = []) :
    (expandSeeds g idx [(cid, sc)] []).length = 1 := by
  rw [expandSeeds, if_neg (not_not.mpr hmem), hnb]
  rfl

/-- C2 (amended): on a fitted retriever (nonempty vocabulary), `query(text, 0)`
returns an empty result list without raising.  The original claim extended
this to every k ≤ 0; it fails for negative k, whose Python slice `l[:k]` drops
only the last `|k|` ranked chunks and returns the rest — see the
counterexample. -/
theorem claim_C2_amended (st : GraphRetriever) (text : String)
    (h : st.embedder.vocabulary ≠ []) :
    st.query text 0 = some [] := by
  rw [GraphRetriever.query, transform, if_neg h, Option.map_some']
  have ht : pyTake (0 : Int) (score_chunks st
      ((dedupFirst (tokenize text)).foldl
        (transformStep st.embedder.vocabulary st.embedder.idf
          (tfWeight (tokenize text)))
        (List.replicate st.embedder.vocabulary.length 0))) = [] := by
    simp [pyTake]
  rw [ht]
  rfl

theorem claim_C2_amended_witness : demoRetriever.query "a" 0 = some [] :=
  claim_C2_amended demoRetriever "a" (by decide)

/-- C2 counterexample: on the fitted two-chunk demo retriever,
`query("a", -1)` (k = -1 ≤ 0) returns a list of length 1, not the empty
result sequence the claim promises for every k ≤ 0: the Python slice
`scored_chunks[:-1]` keeps the first of the two ranked chunks. -/
theorem claim_C2_counterexample :
    (demoRetriever.query "a" (-1)).map List.length = some 1
    ∧ demoRetriever.query "a" (-1) ≠ some [] := by
  have hvocab : demoRetriever.embedder.vocabulary ≠ [] := by decide
  obtain ⟨qv, hqv⟩ : ∃ qv, transform demoRetriever.embedder "a" = some qv :=
    ⟨_, by rw [transform, if_neg hvocab]⟩
  have hslen : (score_chunks demoRetriever qv).length = 2 := by
    rw [score_chunks, List.Perm.length_eq (sortDescBy_perm _ _), List.length_map]
    rfl
  have hne0 : score_chunks demoRetriever qv ≠ [] := by
    intro h0
    rw [h0] at hslen
    simp at hslen
  obtain ⟨s₀, rest, hsc⟩ := List.exists_cons_of_ne_nil hne0
  have hrestlen : rest.length = 1 := by
    rw [hsc, List.length_cons] at hslen
    omega
  have htake : pyTake (-1) (score_chunks demoRetriever qv) = [s₀] := by
    rw [hsc, pyTake, if_pos (by decide)]
    have hn : (((s₀ :: rest).length : Int) + (-1)).toNat = 1 := by
      rw [List.length_cons, hrestlen]
      decide
    rw [hn, List.take_succ_cons, List.take_zero]
  have hkeys : ∀ p ∈ demoRetriever.chunk_embeddings,
      p.1 ∈ demoRetriever.graph.nodes.map Prod.fst
      ∧ demoRetriever.graph.neighbors p.1 = [] := by decide
  have hs₀mem : s₀ ∈ score_chunks demoRetriever qv := by
    rw [hsc]
    exact List.mem_cons_self _ _
  have hs₀p : s₀.1 ∈ demoRetriever.graph.nodes.map Prod.fst
      ∧ demoRetriever.graph.neighbors s₀.1 = [] := by
    rw [score_chunks] at hs₀mem
    have h2 := (List.Perm.mem_iff (sortDescBy_perm _ _)).mp hs₀mem
    obtain ⟨p, hp, hEq⟩ := List.mem_map.mp h2
    rw [← hEq]
    exact hkeys p hp
  have hexplen :
      (expand_via_graph demoRetriever.graph demoRetriever.chunk_index [s₀]).length
        = 1 := by
    rw [expand_via_graph, List.Perm.length_eq (sortDescBy_perm _ _)]
    exact expandSeeds_single_len demoRetriever.graph demoRetriever.chunk_index
      s₀.1 s₀.2 hs₀p.1 hs₀p.2
  have hquery : demoRetriever.query "a" (-1)
      = some (expand_via_graph demoRetriever.graph demoRetriever.chunk_index [s₀]) := by
    rw [GraphRetriever.query, hqv, Option.map_some', htake]
  refine ⟨?_, ?_⟩
  · rw [hquery, Option.map_some', hexplen]
  · rw [hquery]
    intro hbad
    have hnil := Option.some.inj hbad
    rw [hnil] at hexplen
    simp at hexplen

end GraphRAG
